import Mathlib

/-!
Verification of the blaze native-engine core: join hash map
(`src/native-engine/datafusion-ext-plans/src/joins/join_hash_map.rs`),
count accumulator (`src/agg/count.rs`), external UDAF accumulator column
(`src/agg/spark_udaf_wrapper.rs`) and headless Arrow IPC framing
(`src/native-engine/datafusion-ext/src/util/ipc.rs`), shallowly embedded
over `Nat`/`List`.  Machine integers are `Nat` with explicit masks where
the source masks; byte streams are `List Nat` of values < 256.
-/

/-! ## Varint length codec

Modelled from the spec: `write_len` / `read_len` from
`datafusion-ext-commons::io` (the crate is not part of the sources under
verification).  The spec fixes: a non-negative integer is encoded as a
self-delimiting variable-length byte sequence, any value written is read
back identically, and the reader advances exactly by the bytes consumed.
We use the standard base-128 little-endian-group encoding with a
continuation high bit. -/
def writeLenAux : Nat → Nat → List Nat
  | 0, n => [n % 128]
  | fuel + 1, n =>
    if n < 128 then [n] else (n % 128 + 128) :: writeLenAux fuel (n / 128)

def write_len (n : Nat) : List Nat := writeLenAux n n

theorem writeLenAux_congr (f1 : Nat) : ∀ f2 n, n ≤ f1 → n ≤ f2 →
    writeLenAux f1 n = writeLenAux f2 n := by
  induction f1 with
  | zero =>
    intro f2 n h1 _
    have hz : n = 0 := by omega
    subst hz
    cases f2 <;> simp [writeLenAux]
  | succ f ih =>
    intro f2 n h1 h2
    cases f2 with
    | zero =>
      have hz : n = 0 := by omega
      subst hz
      simp [writeLenAux]
    | succ f2' =>
      simp only [writeLenAux]
      by_cases hn : n < 128
      · rw [if_pos hn, if_pos hn]
      · rw [if_neg hn, if_neg hn]
        congr 1
        have hd : n / 128 < n := Nat.div_lt_self (by omega) (by omega)
        exact ih f2' (n / 128) (by omega) (by omega)

/-- The recursive unfolding of `write_len`. -/
theorem write_len_eq (n : Nat) :
    write_len n = if n < 128 then [n] else (n % 128 + 128) :: write_len (n / 128) := by
  unfold write_len
  cases n with
  | zero => simp [writeLenAux]
  | succ m =>
    simp only [writeLenAux]
    by_cases hn : m + 1 < 128
    · rw [if_pos hn, if_pos hn]
    · rw [if_neg hn, if_neg hn]
      congr 1
      have hd : (m + 1) / 128 < m + 1 := Nat.div_lt_self (by omega) (by omega)
      exact writeLenAux_congr m ((m + 1) / 128) ((m + 1) / 128) (by omega) (le_refl _)

/-- Modelled from the spec: the reader of the varint codec.  Returns the
decoded value and the remaining bytes, or `none` on truncated input. -/
def read_len : List Nat → Option (Nat × List Nat)
  | [] => none
  | b :: rest =>
    if b < 128 then some (b, rest)
    else match read_len rest with
      | some (m, rest2) => some (b - 128 + 128 * m, rest2)
      | none => none

theorem read_len_write_len (n : Nat) (tail : List Nat) :
    read_len (write_len n ++ tail) = some (n, tail) := by
  induction n using Nat.strong_induction_on with
  | _ n ih =>
    rw [write_len_eq]
    by_cases h : n < 128
    · simp [h, read_len]
    · have hdiv : n / 128 < n := Nat.div_lt_self (by omega) (by omega)
      simp only [if_neg h, List.cons_append, read_len, ih (n / 128) hdiv]
      have hmod : n % 128 < 128 := Nat.mod_lt _ (by omega)
      simp only [if_neg (by omega : ¬ n % 128 + 128 < 128)]
      have hsum : n % 128 + 128 * (n / 128) = n := by
        have := Nat.mod_add_div n 128
        omega
      simp only [Nat.add_sub_cancel, hsum]

/-- Bytes written by `write_len` are genuine bytes. -/
theorem write_len_lt_256 (n : Nat) : ∀ b ∈ write_len n, b < 256 := by
  induction n using Nat.strong_induction_on with
  | _ n ih =>
    rw [write_len_eq]
    by_cases h : n < 128
    · simp [h]; omega
    · have hdiv : n / 128 < n := Nat.div_lt_self (by omega) (by omega)
      simp only [if_neg h, List.mem_cons]
      rintro b (rfl | hb)
      · have : n % 128 < 128 := Nat.mod_lt _ (by omega)
        omega
      · exact ih _ hdiv b hb

/-! ## Fixed-width little-endian byte encodings -/

/-- Little-endian 4-byte encoding of a 32-bit value. -/
def u32le (x : Nat) : List Nat :=
  [x % 256, x / 256 % 256, x / 65536 % 256, x / 16777216 % 256]

/-- Little-endian 8-byte encoding of a 64-bit value. -/
def u64le (x : Nat) : List Nat :=
  u32le (x % 4294967296) ++ u32le (x / 4294967296)

/-- Decode 4 little-endian bytes. -/
def decodeU32le (b0 b1 b2 b3 : Nat) : Nat :=
  b0 + 256 * b1 + 65536 * b2 + 16777216 * b3

theorem decodeU32le_u32le (x : Nat) (hx : x < 4294967296) :
    decodeU32le (x % 256) (x / 256 % 256) (x / 65536 % 256) (x / 16777216 % 256) = x := by
  unfold decodeU32le
  omega

/-! ## MapValue (join_hash_map.rs lines 41-85)

A 64-bit packed slot: word 0 carries a 2-bit tag in the high bits
(`00` empty, `10` single, `11` range) and the 30-bit masked hash in the
low bits; word 1 carries the payload (single row index or range start).
Both words are 32-bit values represented as `Nat`. -/
structure MapValue where
  w0 : Nat
  w1 : Nat
deriving DecidableEq, Repr

namespace MapValue

def EMPTY : MapValue := ⟨0, 0⟩

/-- `hash & 0x3fffffff`: for `Nat`, bitwise AND with `2^30 - 1` is `% 2^30`. -/
def mask_hash (hash : Nat) : Nat := hash % 1073741824

/-- `0b10 << 30 | mask_hash hash` — the OR operands occupy disjoint bits,
so the OR is addition. -/
def new_single (hash idx : Nat) : MapValue :=
  ⟨2 * 1073741824 + mask_hash hash, idx⟩

/-- `0b11 << 30 | mask_hash hash`. -/
def new_range (hash start : Nat) : MapValue :=
  ⟨3 * 1073741824 + mask_hash hash, start⟩

def is_empty (v : MapValue) : Bool := v.w0 == 0

/-- `w0 >> 30 == 0b10`. -/
def is_single (v : MapValue) : Bool := v.w0 / 1073741824 == 2

/-- `w0 >> 30 == 0b11`. -/
def is_range (v : MapValue) : Bool := v.w0 / 1073741824 == 3

def hash (v : MapValue) : Nat := mask_hash v.w0

def get_single (v : MapValue) : Nat := v.w1

/-- `get_range` reads the run stored in `mapped_indices`:
`start = w1`, `len = mapped_indices[start-1]`, slice `[start, start+len)`. -/
def get_range (v : MapValue) (mapped_indices : List Nat) : List Nat :=
  let start := v.w1
  let len := mapped_indices.getD (start - 1) 0
  (mapped_indices.drop start).take len

theorem mask_hash_lt (h : Nat) : mask_hash h < 1073741824 :=
  Nat.mod_lt _ (by omega)

theorem mask_hash_idem (h : Nat) : mask_hash (mask_hash h) = mask_hash h := by
  unfold mask_hash
  omega

theorem new_single_is_single (h i : Nat) : (new_single h i).is_single = true := by
  have := mask_hash_lt h
  simp only [new_single, is_single, beq_iff_eq]
  omega

theorem new_single_not_empty (h i : Nat) : (new_single h i).is_empty = false := by
  simp only [new_single, is_empty, beq_eq_false_iff_ne, ne_eq]
  omega

theorem new_single_hash (h i : Nat) : (new_single h i).hash = mask_hash h := by
  have := mask_hash_lt h
  simp only [new_single, hash, mask_hash]
  omega

theorem new_single_get_single (h i : Nat) : (new_single h i).get_single = i := rfl

theorem new_range_is_range (h s : Nat) : (new_range h s).is_range = true := by
  have := mask_hash_lt h
  simp only [new_range, is_range, beq_iff_eq]
  omega

theorem new_range_not_empty (h s : Nat) : (new_range h s).is_empty = false := by
  simp only [new_range, is_empty, beq_eq_false_iff_ne, ne_eq]
  omega

theorem new_range_hash (h s : Nat) : (new_range h s).hash = mask_hash h := by
  have := mask_hash_lt h
  simp only [new_range, hash, mask_hash]
  omega

theorem EMPTY_is_empty : EMPTY.is_empty = true := rfl

end MapValue

/-- C10: MapValue packing invariants: `new_single h v` is single, non-empty,
with `hash = mask_hash h` and `get_single = v`; `new_range h v` is range,
non-empty, with `hash = mask_hash h`; `EMPTY` is empty.  In particular a
stored single or range entry is never recognized as empty, even when its
masked hash is zero. -/
theorem C10_mapvalue_packing (h v : Nat) :
    (MapValue.new_single h v).is_single = true ∧
    (MapValue.new_single h v).is_empty = false ∧
    (MapValue.new_single h v).hash = MapValue.mask_hash h ∧
    (MapValue.new_single h v).get_single = v ∧
    (MapValue.new_range h v).is_range = true ∧
    (MapValue.new_range h v).is_empty = false ∧
    (MapValue.new_range h v).hash = MapValue.mask_hash h ∧
    MapValue.EMPTY.is_empty = true :=
  ⟨MapValue.new_single_is_single h v, MapValue.new_single_not_empty h v,
   MapValue.new_single_hash h v, MapValue.new_single_get_single h v,
   MapValue.new_range_is_range h v, MapValue.new_range_not_empty h v,
   MapValue.new_range_hash h v, MapValue.EMPTY_is_empty⟩

/-! ## JoinTable (join_hash_map.rs lines 87-238) -/

structure Table where
  num_valid_items : Nat
  map_mod : Nat
  map : List MapValue
  mapped_indices : List Nat
deriving DecidableEq, Repr

/-- Raw little-endian bytes of one `MapValue` (8 bytes: two u32 words),
as written by `write_raw_slice` for a `&[MapValue]`. -/
def mapValueBytes (v : MapValue) : List Nat := u32le v.w0 ++ u32le v.w1

/-- `Table::try_into_raw_bytes`: varint `num_valid_items`, varint `map_mod`,
varint `map.len`, raw little-endian map slice, varint `mapped_indices.len`,
then each mapped index as a varint. -/
def Table.try_into_raw_bytes (t : Table) : List Nat :=
  write_len t.num_valid_items ++
  write_len t.map_mod ++
  write_len t.map.length ++
  (t.map.map mapValueBytes).flatten ++
  write_len t.mapped_indices.length ++
  (t.mapped_indices.map write_len).flatten

/-- Read `n` consecutive `MapValue`s from their raw little-endian bytes
(`read_raw_slice` into a `Vec<MapValue>` of length `n`). -/
def readMapValues : Nat → List Nat → Option (List MapValue × List Nat)
  | 0, bs => some ([], bs)
  | n + 1, b0 :: b1 :: b2 :: b3 :: c0 :: c1 :: c2 :: c3 :: rest =>
    match readMapValues n rest with
    | some (vs, rest2) =>
      some (⟨decodeU32le b0 b1 b2 b3, decodeU32le c0 c1 c2 c3⟩ :: vs, rest2)
    | none => none
  | _ + 1, _ => none

/-- Read `n` varints, each truncated `as u32` (the source pushes
`read_len(..)? as u32`). -/
def readLens : Nat → List Nat → Option (List Nat × List Nat)
  | 0, bs => some ([], bs)
  | n + 1, bs =>
    match read_len bs with
    | some (v, rest) =>
      match readLens n rest with
      | some (vs, rest2) => some (v % 4294967296 :: vs, rest2)
      | none => none
    | none => none

/-- `Table::load_from_raw_bytes`.  `map_mod` is read `as u32`
(truncation modulo 2^32). -/
def Table.load_from_raw_bytes (bytes : List Nat) : Option Table := do
  let (num_valid_items, r1) ← read_len bytes
  let (map_mod0, r2) ← read_len r1
  let (map_len, r3) ← read_len r2
  let (map, r4) ← readMapValues map_len r3
  let (mapped_indices_len, r5) ← read_len r4
  let (mapped_indices, _r6) ← readLens mapped_indices_len r5
  pure { num_valid_items, map_mod := map_mod0 % 4294967296, map, mapped_indices }

/-- A well-formed table: all stored words are 32-bit values (in the source
they have type `u32`). -/
def Table.wf (t : Table) : Prop :=
  t.map_mod < 4294967296 ∧
  (∀ v ∈ t.map, v.w0 < 4294967296 ∧ v.w1 < 4294967296) ∧
  (∀ x ∈ t.mapped_indices, x < 4294967296)

instance (t : Table) : Decidable t.wf := by
  unfold Table.wf; infer_instance

theorem readMapValues_flatten (vs : List MapValue) (tail : List Nat)
    (hwf : ∀ v ∈ vs, v.w0 < 4294967296 ∧ v.w1 < 4294967296) :
    readMapValues vs.length ((vs.map mapValueBytes).flatten ++ tail) = some (vs, tail) := by
  induction vs with
  | nil => simp [readMapValues]
  | cons v vs ih =>
    have hv := hwf v (List.mem_cons_self ..)
    have hrest : ∀ u ∈ vs, u.w0 < 4294967296 ∧ u.w1 < 4294967296 :=
      fun u hu => hwf u (List.mem_cons_of_mem _ hu)
    simp only [List.length_cons, List.map_cons, List.flatten_cons, List.append_assoc]
    simp only [mapValueBytes, u32le, List.cons_append, List.nil_append, readMapValues]
    simp only [List.append_eq, List.nil_append, ih hrest]
    have h0 := decodeU32le_u32le v.w0 hv.1
    have h1 := decodeU32le_u32le v.w1 hv.2
    rw [h0, h1]

theorem readLens_flatten (xs : List Nat) (tail : List Nat)
    (hwf : ∀ x ∈ xs, x < 4294967296) :
    readLens xs.length ((xs.map write_len).flatten ++ tail) = some (xs, tail) := by
  induction xs with
  | nil => simp [readLens]
  | cons x xs ih =>
    have hx := hwf x (List.mem_cons_self ..)
    have hrest : ∀ u ∈ xs, u < 4294967296 := fun u hu => hwf u (List.mem_cons_of_mem _ hu)
    simp only [List.length_cons, List.map_cons, List.flatten_cons, List.append_assoc,
      readLens, read_len_write_len, ih hrest]
    rw [Nat.mod_eq_of_lt hx]

/-- C3: serializing a well-formed table and deserializing the bytes yields
the table back, equal in all four fields. -/
theorem C3_table_serialization_roundtrip (t : Table) (hwf : t.wf) :
    Table.load_from_raw_bytes t.try_into_raw_bytes = some t := by
  obtain ⟨hmod, hmap, hmi⟩ := hwf
  have hmi' : readLens t.mapped_indices.length
      ((t.mapped_indices.map write_len).flatten) = some (t.mapped_indices, []) := by
    have := readLens_flatten t.mapped_indices [] hmi
    simpa using this
  simp only [Table.try_into_raw_bytes, Table.load_from_raw_bytes, List.append_assoc]
  simp only [read_len_write_len, Option.bind_eq_bind, Option.some_bind,
    readMapValues_flatten t.map _ hmap, hmi']
  simp [Nat.mod_eq_of_lt hmod]

/-- Witness for C3 at a concrete well-formed table. -/
theorem C3_table_serialization_roundtrip_witness :
    let t : Table := ⟨2, 5, [MapValue.EMPTY, MapValue.new_single 7 1,
      MapValue.new_range 300 1, MapValue.EMPTY], [2, 0, 3]⟩
    t.wf ∧ Table.load_from_raw_bytes t.try_into_raw_bytes = some t := by
  refine ⟨by decide, C3_table_serialization_roundtrip _ (by decide)⟩

/-! ## Join table build (join_hash_map.rs lines 94-169)

The row hasher (`join_create_hashes`, delegating to the external
`spark_hash::create_hashes` with seed `0x1E39FA04`) is an external
collaborator per the spec, so the build is parameterized over the list of
per-row 32-bit hashes.  Key columns are represented by their validity
masks (`is_valid` is all the build reads from them).  The radix sort
(`radix_sorted_unstable_by_key` from `datafusion-ext-commons::rdxsort`,
not part of the sources under verification) sorts the pairs by the masked
hash; it is modelled by a comparison sort on the same key. -/

/-- `key_is_valid(row_idx)`: every key column is valid (non-null) at the row. -/
def key_is_valid (key_columns : List (List Bool)) (i : Nat) : Bool :=
  key_columns.all (fun col => col.getD i false)

/-- The `(idx, masked_hash)` pairs of the valid rows, in row order:
`hashes.enumerate().filter(key_is_valid).map(..)` after in-place masking. -/
def validPairs (key_columns : List (List Bool)) (hashes : List Nat) : List (Nat × Nat) :=
  ((hashes.map MapValue.mask_hash).enum).filter (fun p => key_is_valid key_columns p.1)

/-- Sort the pairs by masked hash (models the unstable radix sort by key). -/
def sortPairs (pairs : List (Nat × Nat)) : List (Nat × Nat) :=
  List.insertionSort (fun a b => a.2 ≤ b.2) pairs

/-- One step of `chunk_by`: either extend the most recent group (equal
hash) or open a new one. -/
def chunkCons (i h : Nat) : List (Nat × List Nat) → List (Nat × List Nat)
  | [] => [(h, [i])]
  | (h2, g) :: gs => if h = h2 then (h, i :: g) :: gs else (h, [i]) :: (h2, g) :: gs

/-- `chunk_by(|(_, hash)| *hash)`: group consecutive pairs with equal hash,
returning `(hash, row indices)` per group. -/
def chunkByHash : List (Nat × Nat) → List (Nat × List Nat)
  | [] => []
  | (i, h) :: rest => chunkCons i h (chunkByHash rest)

/-- The per-group loop body of `create_from_key_columns`: for each group,
reserve `mapped_indices[pos] = len`, append the row indices, and emit a
single (popping the two entries back) or a range item. -/
def buildGroups : List (Nat × List Nat) → List Nat → (List MapValue × List Nat)
  | [], mi => ([], mi)
  | (_, []) :: rest, mi => buildGroups rest mi
  | (h, [i]) :: rest, mi =>
    let r := buildGroups rest mi
    (MapValue.new_single h i :: r.1, r.2)
  | (h, g) :: rest, mi =>
    let r := buildGroups rest (mi ++ g.length :: g)
    (MapValue.new_range h (mi.length + 1) :: r.1, r.2)

/-- `while i < map.len() && !map[i].is_empty() { i += 1 }`: the first slot
`j ≥ i` that is past the end or holds an EMPTY entry. -/
def findSlot (map : List MapValue) (i : Nat) : Nat :=
  if _h : i < map.length then
    if (map.getD i MapValue.EMPTY).is_empty then i else findSlot map (i + 1)
  else i
termination_by map.length - i

/-- Insert one item: probe linearly from its canonical bucket; write the
first empty slot, or push at the end when probing ran past the length. -/
def insertItem (map_mod : Nat) (map : List MapValue) (item : MapValue) : List MapValue :=
  if findSlot map (item.hash % map_mod) < map.length
  then map.set (findSlot map (item.hash % map_mod)) item
  else map ++ [item]

/-- Build the bucket array: `map_mod` EMPTY slots, insert every item, then
push one trailing EMPTY sentinel. -/
def buildMap (items : List MapValue) (map_mod : Nat) : List MapValue :=
  (items.foldl (insertItem map_mod) (List.replicate map_mod MapValue.EMPTY)) ++ [MapValue.EMPTY]

/-- `Table::create_from_key_columns`, with the external row hashes passed
in (`num_rows = hashes.length`). -/
def Table.create_from_key_columns (key_columns : List (List Bool)) (hashes : List Nat) :
    Table :=
  let pairs := validPairs key_columns hashes
  let groups := chunkByHash (sortPairs pairs)
  let bg := buildGroups groups []
  let map_mod := bg.1.length * 2 + 1
  { num_valid_items := pairs.length
    map_mod := map_mod
    map := buildMap bg.1 map_mod
    mapped_indices := bg.2 }

/-! ## Join table lookup (join_hash_map.rs lines 225-237) -/

/-- The probe loop of `Table::lookup`, walking the map from the canonical
bucket: stop with EMPTY at an empty slot, return the entry on hash match.
The `[]` case models running past the end of the array, which the sentinel
rules out for constructed tables. -/
def lookupLoop (h : Nat) : List MapValue → MapValue
  | [] => MapValue.EMPTY
  | v :: rest =>
    if v.is_empty then MapValue.EMPTY
    else if v.hash = h then v
    else lookupLoop h rest

def Table.lookup (t : Table) (hash : Nat) : MapValue :=
  lookupLoop (MapValue.mask_hash hash)
    (t.map.drop (MapValue.mask_hash hash % t.map_mod))

/-- Number of slots the probe loop reads. -/
def lookupIters (h : Nat) : List MapValue → Nat
  | [] => 0
  | v :: rest =>
    if v.is_empty then 1
    else if v.hash = h then 1
    else 1 + lookupIters h rest

/-- Whether the probe loop stops by itself (empty slot or hash match)
rather than running past the end of the array. -/
def lookupStops (h : Nat) : List MapValue → Bool
  | [] => false
  | v :: rest =>
    if v.is_empty then true
    else if v.hash = h then true
    else lookupStops h rest

/-! ### Grouping lemmas -/

theorem chunkByHash_flatten (l : List (Nat × Nat)) :
    (chunkByHash l).flatMap (fun p => p.2.map (fun i => (i, p.1))) = l := by
  induction l with
  | nil => rfl
  | cons x rest ih =>
    obtain ⟨i, h⟩ := x
    simp only [chunkByHash]
    cases hc : chunkByHash rest with
    | nil =>
      rw [hc] at ih
      simp only [List.flatMap_nil] at ih
      simp [chunkCons, ← ih]
    | cons g gs =>
      obtain ⟨h2, grp⟩ := g
      rw [hc] at ih
      by_cases he : h = h2
      · subst he
        simp only [chunkCons, if_true]
        simp only [List.flatMap_cons, List.map_cons, List.cons_append]
        rw [← ih, List.flatMap_cons]
      · simp only [chunkCons, if_neg he, List.flatMap_cons, List.map_cons, List.map_nil,
          List.cons_append, List.nil_append]
        rw [← ih, List.flatMap_cons]

theorem chunkByHash_groups_ne_nil (l : List (Nat × Nat)) :
    ∀ p ∈ chunkByHash l, p.2 ≠ [] := by
  induction l with
  | nil => simp [chunkByHash]
  | cons x rest ih =>
    obtain ⟨i, h⟩ := x
    simp only [chunkByHash]
    cases hc : chunkByHash rest with
    | nil => simp [chunkCons]
    | cons g gs =>
      obtain ⟨h2, grp⟩ := g
      rw [hc] at ih
      by_cases he : h = h2
      · subst he
        simp only [chunkCons, if_true]
        intro p hp
        rcases List.mem_cons.mp hp with rfl | hp'
        · simp
        · exact ih p (List.mem_cons_of_mem _ hp')
      · simp only [chunkCons, if_neg he]
        intro p hp
        rcases List.mem_cons.mp hp with rfl | hp'
        · simp
        · exact ih p hp'

theorem chunkByHash_keys_mem (l : List (Nat × Nat)) :
    ∀ p ∈ chunkByHash l, p.1 ∈ l.map Prod.snd := by
  induction l with
  | nil => simp [chunkByHash]
  | cons x rest ih =>
    obtain ⟨i, h⟩ := x
    simp only [chunkByHash]
    cases hc : chunkByHash rest with
    | nil =>
      simp only [chunkCons]
      intro p hp
      rcases List.mem_cons.mp hp with rfl | hp'
      · simp
      · simp at hp'
    | cons g gs =>
      obtain ⟨h2, grp⟩ := g
      rw [hc] at ih
      by_cases he : h = h2
      · subst he
        simp only [chunkCons, if_true]
        intro p hp
        rcases List.mem_cons.mp hp with rfl | hp'
        · simp
        · exact List.mem_cons_of_mem _ (ih p (List.mem_cons_of_mem _ hp'))
      · simp only [chunkCons, if_neg he]
        intro p hp
        rcases List.mem_cons.mp hp with rfl | hp'
        · simp
        · exact List.mem_cons_of_mem _ (ih p hp')

theorem chunkByHash_keys_chain (l : List (Nat × Nat))
    (hs : List.Sorted (fun a b => a.2 ≤ b.2) l) :
    List.Chain' (· < ·) ((chunkByHash l).map Prod.fst) := by
  induction l with
  | nil => simp [chunkByHash]
  | cons x rest ih =>
    obtain ⟨i, h⟩ := x
    rw [List.sorted_cons] at hs
    obtain ⟨hle, hrest⟩ := hs
    have ihc := ih hrest
    simp only [chunkByHash]
    cases hc : chunkByHash rest with
    | nil => simp [chunkCons]
    | cons g gs =>
      obtain ⟨h2, grp⟩ := g
      rw [hc] at ihc
      by_cases he : h = h2
      · subst he
        simp only [chunkCons, if_true]
        simpa using ihc
      · simp only [chunkCons, if_neg he, List.map_cons]
        refine List.chain'_cons.mpr ⟨?_, by simpa using ihc⟩
        have hk : h2 ∈ rest.map Prod.snd := by
          have := chunkByHash_keys_mem rest (h2, grp) (by rw [hc]; exact List.mem_cons_self ..)
          simpa using this
        obtain ⟨p, hp, hp2⟩ := List.mem_map.mp hk
        have := hle p hp
        omega

/-! ### buildGroups lemmas -/

/-- What one map item promises about its group, relative to the final
`mapped_indices`: it is non-empty, carries the group's masked hash, and
resolves (as a single index or as a `get_range` slice) to exactly the
group's row indices. -/
def itemSpec (mi : List Nat) (p : Nat × List Nat) (item : MapValue) : Prop :=
  item.is_empty = false ∧ item.hash = MapValue.mask_hash p.1 ∧
  ((item.is_single = true ∧ p.2 = [item.get_single]) ∨
   (item.is_range = true ∧ item.get_range mi = p.2))

theorem buildGroups_prefix (groups : List (Nat × List Nat)) (mi : List Nat) :
    mi <+: (buildGroups groups mi).2 := by
  induction groups generalizing mi with
  | nil => exact List.prefix_rfl
  | cons p rest ih =>
    obtain ⟨h, g⟩ := p
    rcases g with _ | ⟨a, _ | ⟨b, t⟩⟩
    · simpa only [buildGroups] using ih mi
    · simpa only [buildGroups] using ih mi
    · simp only [buildGroups]
      exact (List.prefix_append mi _).trans (ih _)

theorem forall2_mem_left {α β : Type} {R : α → β → Prop} {l1 : List α} {l2 : List β}
    (h : List.Forall₂ R l1 l2) {a : α} (ha : a ∈ l1) : ∃ b ∈ l2, R a b := by
  induction h with
  | nil => cases ha
  | cons hr _ ih =>
    rcases List.mem_cons.mp ha with rfl | ha'
    · exact ⟨_, List.mem_cons_self .., hr⟩
    · obtain ⟨b, hb, hrb⟩ := ih ha'
      exact ⟨b, List.mem_cons_of_mem _ hb, hrb⟩

theorem forall2_mem_right {α β : Type} {R : α → β → Prop} {l1 : List α} {l2 : List β}
    (h : List.Forall₂ R l1 l2) {b : β} (hb : b ∈ l2) : ∃ a ∈ l1, R a b := by
  induction h with
  | nil => cases hb
  | cons hr _ ih =>
    rcases List.mem_cons.mp hb with rfl | hb'
    · exact ⟨_, List.mem_cons_self .., hr⟩
    · obtain ⟨a, ha, hra⟩ := ih hb'
      exact ⟨a, List.mem_cons_of_mem _ ha, hra⟩

theorem forall2_pairwise {α β : Type} {R : α → β → Prop} {S : α → α → Prop}
    {T : β → β → Prop} {l1 : List α} {l2 : List β} (h : List.Forall₂ R l1 l2)
    (hp : List.Pairwise S l1)
    (himp : ∀ a b a2 b2, R a b → R a2 b2 → S a a2 → T b b2) :
    List.Pairwise T l2 := by
  induction h with
  | nil => exact List.Pairwise.nil
  | cons hr htail ih =>
    rw [List.pairwise_cons] at hp ⊢
    refine ⟨?_, ih hp.2⟩
    intro b' hb'
    obtain ⟨a', ha', hra'⟩ := forall2_mem_right htail hb'
    exact himp _ _ _ _ hr hra' (hp.1 a' ha')

theorem getd_mid (mi g ext : List Nat) :
    (mi ++ g.length :: (g ++ ext)).getD (mi.length + 1 - 1) 0 = g.length := by
  simp only [Nat.add_sub_cancel]
  rw [List.getD_append_right mi _ 0 mi.length (le_refl _)]
  simp

theorem drop_take_mid (mi g ext : List Nat) :
    ((mi ++ g.length :: (g ++ ext)).drop (mi.length + 1)).take g.length = g := by
  have h2 : mi ++ g.length :: (g ++ ext) = (mi ++ [g.length]) ++ (g ++ ext) := by simp
  have h3 : mi.length + 1 = (mi ++ [g.length]).length := by simp
  rw [h2, h3, List.drop_left, List.take_left]

theorem buildGroups_spec (groups : List (Nat × List Nat)) (mi : List Nat)
    (hne : ∀ p ∈ groups, p.2 ≠ []) :
    List.Forall₂ (itemSpec (buildGroups groups mi).2) groups (buildGroups groups mi).1 := by
  induction groups generalizing mi with
  | nil => simp [buildGroups]
  | cons p rest ih =>
    obtain ⟨h, g⟩ := p
    have hrest : ∀ q ∈ rest, q.2 ≠ [] := fun q hq => hne q (List.mem_cons_of_mem _ hq)
    rcases g with _ | ⟨a, _ | ⟨b, t⟩⟩
    · exact absurd rfl (hne (h, []) (List.mem_cons_self ..))
    · simp only [buildGroups]
      refine List.Forall₂.cons ?_ (ih mi hrest)
      exact ⟨MapValue.new_single_not_empty h a, MapValue.new_single_hash h a,
        Or.inl ⟨MapValue.new_single_is_single h a, rfl⟩⟩
    · simp only [buildGroups]
      refine List.Forall₂.cons ?_ (ih _ hrest)
      obtain ⟨ext, hext⟩ := buildGroups_prefix rest (mi ++ (a :: b :: t).length :: a :: b :: t)
      refine ⟨MapValue.new_range_not_empty h _, MapValue.new_range_hash h _,
        Or.inr ⟨MapValue.new_range_is_range h _, ?_⟩⟩
      rw [← hext]
      simp only [MapValue.get_range, MapValue.new_range]
      have hg1 := getd_mid mi (a :: b :: t) ext
      have hg2 := drop_take_mid mi (a :: b :: t) ext
      simp only [List.append_assoc, List.cons_append, List.nil_append] at hg1 hg2 ⊢
      rw [hg1, hg2]

/-! ### Map insertion lemmas -/

/-- `item` sits in some in-bounds slot `j` at or after its canonical
bucket, with every slot between the bucket and `j` non-empty. -/
def placed (mod : Nat) (map : List MapValue) (item : MapValue) : Prop :=
  ∃ j, item.hash % mod ≤ j ∧ j < map.length ∧ map.getD j MapValue.EMPTY = item ∧
    ∀ k, item.hash % mod ≤ k → k < j → (map.getD k MapValue.EMPTY).is_empty = false

theorem findSlot_spec (map : List MapValue) (i : Nat) :
    i ≤ findSlot map i ∧
    (∀ k, i ≤ k → k < findSlot map i → (map.getD k MapValue.EMPTY).is_empty = false) ∧
    (findSlot map i < map.length → (map.getD (findSlot map i) MapValue.EMPTY).is_empty = true) ∧
    (i ≤ map.length → findSlot map i ≤ map.length) := by
  generalize hd : map.length - i = d
  induction d generalizing i with
  | zero =>
    have hge : ¬ i < map.length := by omega
    rw [findSlot, dif_neg hge]
    exact ⟨le_refl _, fun k hk1 hk2 => absurd (lt_of_le_of_lt hk1 hk2) (lt_irrefl _),
      fun h => absurd h hge, fun h => h⟩
  | succ d ih =>
    by_cases hlt : i < map.length
    · rw [findSlot, dif_pos hlt]
      by_cases hemp : (map.getD i MapValue.EMPTY).is_empty = true
      · rw [if_pos hemp]
        exact ⟨le_refl _, fun k hk1 hk2 => absurd (lt_of_le_of_lt hk1 hk2) (lt_irrefl _),
          fun _ => hemp, fun _ => le_of_lt hlt⟩
      · rw [if_neg hemp]
        have ih' := ih (i + 1) (by omega)
        refine ⟨by omega, ?_, ih'.2.2.1, fun _ => ih'.2.2.2 (by omega)⟩
        intro k hk1 hk2
        rcases Nat.eq_or_lt_of_le hk1 with rfl | hk1'
        · exact Bool.not_eq_true _ ▸ (Bool.eq_false_iff.mpr (fun hc => hemp hc))
        · exact ih'.2.1 k (by omega) hk2
    · rw [findSlot, dif_neg hlt]
      exact ⟨le_refl _, fun k hk1 hk2 => absurd (lt_of_le_of_lt hk1 hk2) (lt_irrefl _),
        fun h => absurd h hlt, fun h => h⟩

theorem insertItem_length (mod : Nat) (map : List MapValue) (item : MapValue) :
    map.length ≤ (insertItem mod map item).length := by
  unfold insertItem
  split
  · rw [List.length_set]
  · simp

theorem insertItem_preserves (mod : Nat) (map : List MapValue) (item : MapValue) (k : Nat)
    (hk : (map.getD k MapValue.EMPTY).is_empty = false) :
    (insertItem mod map item).getD k MapValue.EMPTY = map.getD k MapValue.EMPTY := by
  unfold insertItem
  split
  case isTrue hj =>
    have hspec := findSlot_spec map (item.hash % mod)
    by_cases hkj : findSlot map (item.hash % mod) = k
    · rw [← hkj] at hk
      rw [hspec.2.2.1 hj] at hk
      cases hk
    · rw [List.getD_eq_getElem?_getD, List.getElem?_set_ne hkj,
        ← List.getD_eq_getElem?_getD]
  case isFalse hj =>
    by_cases hklen : k < map.length
    · exact List.getD_append _ _ _ _ hklen
    · rw [List.getD_eq_default _ _ (by omega)] at hk
      cases hk

theorem insertItem_placed (mod : Nat) (map : List MapValue) (item : MapValue)
    (hstart : item.hash % mod ≤ map.length) :
    placed mod (insertItem mod map item) item := by
  have hspec := findSlot_spec map (item.hash % mod)
  unfold insertItem
  split
  case isTrue hj =>
    refine ⟨findSlot map (item.hash % mod), hspec.1, by rw [List.length_set]; exact hj, ?_, ?_⟩
    · rw [List.getD_eq_getElem?_getD, List.getElem?_set_self hj]
      rfl
    · intro k hk1 hk2
      have hkne : findSlot map (item.hash % mod) ≠ k := by omega
      rw [List.getD_eq_getElem?_getD, List.getElem?_set_ne hkne,
        ← List.getD_eq_getElem?_getD]
      exact hspec.2.1 k hk1 hk2
  case isFalse hj =>
    refine ⟨map.length, hstart, by simp, ?_, ?_⟩
    · rw [List.getD_append_right _ _ _ _ (le_refl _)]
      simp
    · intro k hk1 hk2
      rw [List.getD_append _ _ _ _ hk2]
      exact hspec.2.1 k hk1 (by omega)

theorem insertItem_preserves_placed (mod : Nat) (map : List MapValue) (item it : MapValue)
    (hp : placed mod map it) (hne : it.is_empty = false) :
    placed mod (insertItem mod map item) it := by
  obtain ⟨j, hj1, hj2, hj3, hj4⟩ := hp
  refine ⟨j, hj1, lt_of_lt_of_le hj2 (insertItem_length mod map item), ?_, ?_⟩
  · rw [insertItem_preserves mod map item j (by rw [hj3]; exact hne), hj3]
  · intro k hk1 hk2
    rw [insertItem_preserves mod map item k (hj4 k hk1 hk2)]
    exact hj4 k hk1 hk2

theorem insertItem_entries (mod : Nat) (map : List MapValue) (item : MapValue) :
    ∀ v ∈ insertItem mod map item, v ∈ map ∨ v = item := by
  unfold insertItem
  split
  · exact fun v hv => List.mem_or_eq_of_mem_set hv
  · intro v hv
    rcases List.mem_append.mp hv with hv' | hv'
    · exact Or.inl hv'
    · exact Or.inr (List.mem_singleton.mp hv')

theorem foldl_insert_length (items : List MapValue) (mod : Nat) (map : List MapValue) :
    map.length ≤ (items.foldl (insertItem mod) map).length := by
  induction items generalizing map with
  | nil => exact le_refl _
  | cons it rest ih =>
    exact le_trans (insertItem_length mod map it) (by simpa using ih (insertItem mod map it))

theorem foldl_insert_entries (items : List MapValue) (mod : Nat) (map : List MapValue) :
    ∀ v ∈ items.foldl (insertItem mod) map, v ∈ map ∨ v ∈ items := by
  induction items generalizing map with
  | nil => exact fun v hv => Or.inl hv
  | cons it rest ih =>
    intro v hv
    rcases ih (insertItem mod map it) v (by simpa using hv) with hv' | hv'
    · rcases insertItem_entries mod map it v hv' with h1 | h1
      · exact Or.inl h1
      · exact Or.inr (h1 ▸ List.mem_cons_self ..)
    · exact Or.inr (List.mem_cons_of_mem _ hv')

theorem foldl_insert_preserves_placed (items : List MapValue) (mod : Nat)
    (map : List MapValue) (it : MapValue) (hp : placed mod map it)
    (hne : it.is_empty = false) :
    placed mod (items.foldl (insertItem mod) map) it := by
  induction items generalizing map with
  | nil => exact hp
  | cons item rest ih =>
    simpa using ih (insertItem mod map item) (insertItem_preserves_placed mod map item it hp hne)

theorem foldl_insert_placed (items : List MapValue) (mod : Nat) (map : List MapValue)
    (hmod : 0 < mod) (hlen : mod ≤ map.length)
    (hne : ∀ it ∈ items, it.is_empty = false) :
    ∀ it ∈ items, placed mod (items.foldl (insertItem mod) map) it := by
  induction items generalizing map with
  | nil => simp
  | cons item rest ih =>
    intro it hit
    rcases List.mem_cons.mp hit with rfl | hit'
    · have h1 : placed mod (insertItem mod map it) it :=
        insertItem_placed mod map it (le_trans (le_of_lt (Nat.mod_lt _ hmod)) hlen)
      simpa using foldl_insert_preserves_placed rest mod (insertItem mod map it) it h1
        (hne it (List.mem_cons_self ..))
    · have hlen' : mod ≤ (insertItem mod map item).length :=
        le_trans hlen (insertItem_length mod map item)
      simpa using ih (insertItem mod map item) hlen'
        (fun x hx => hne x (List.mem_cons_of_mem _ hx)) it hit'

theorem placed_append (mod : Nat) (m l : List MapValue) (it : MapValue)
    (hp : placed mod m it) : placed mod (m ++ l) it := by
  obtain ⟨j, hj1, hj2, hj3, hj4⟩ := hp
  refine ⟨j, hj1, by simp; omega, ?_, ?_⟩
  · rw [List.getD_append _ _ _ _ hj2]; exact hj3
  · intro k hk1 hk2
    rw [List.getD_append _ _ _ _ (lt_trans hk2 hj2)]
    exact hj4 k hk1 hk2

theorem buildMap_placed (items : List MapValue) (mod : Nat) (hmod : 0 < mod)
    (hne : ∀ it ∈ items, it.is_empty = false) :
    ∀ it ∈ items, placed mod (buildMap items mod) it := by
  intro it hit
  exact placed_append mod _ _ it
    (foldl_insert_placed items mod (List.replicate mod MapValue.EMPTY) hmod
      (by simp) hne it hit)

theorem buildMap_length (items : List MapValue) (mod : Nat) :
    mod + 1 ≤ (buildMap items mod).length := by
  unfold buildMap
  have := foldl_insert_length items mod (List.replicate mod MapValue.EMPTY)
  simp only [List.length_replicate] at this
  simp
  omega

theorem buildMap_entries (items : List MapValue) (mod : Nat) :
    ∀ v ∈ buildMap items mod, v = MapValue.EMPTY ∨ v ∈ items := by
  unfold buildMap
  intro v hv
  rcases List.mem_append.mp hv with hv' | hv'
  · rcases foldl_insert_entries items mod _ v hv' with h1 | h1
    · exact Or.inl (List.eq_of_mem_replicate h1)
    · exact Or.inr h1
  · exact Or.inl (List.mem_singleton.mp hv')

theorem buildMap_last (items : List MapValue) (mod : Nat) :
    (buildMap items mod).getD ((buildMap items mod).length - 1) MapValue.EMPTY
      = MapValue.EMPTY := by
  unfold buildMap
  have hlen : ((items.foldl (insertItem mod) (List.replicate mod MapValue.EMPTY))
      ++ [MapValue.EMPTY]).length
      = (items.foldl (insertItem mod) (List.replicate mod MapValue.EMPTY)).length + 1 := by
    simp
  rw [hlen, Nat.add_sub_cancel, List.getD_append_right _ _ _ _ (le_refl _)]
  simp

/-! ### Lookup lemmas -/

theorem lookupLoop_walk (map : List MapValue) (h : Nat) (j : Nat) (target : MapValue)
    (hj : j < map.length) (htar : map.getD j MapValue.EMPTY = target)
    (hne : target.is_empty = false) (hh : target.hash = h) (start : Nat) :
    start ≤ j →
    (∀ k, start ≤ k → k < j → (map.getD k MapValue.EMPTY).is_empty = false) →
    (∀ k, start ≤ k → k < j → (map.getD k MapValue.EMPTY).hash = h →
      map.getD k MapValue.EMPTY = target) →
    lookupLoop h (map.drop start) = target := by
  generalize hd : j - start = d
  induction d generalizing start with
  | zero =>
    intro hsj _ _
    have heq : start = j := by omega
    subst heq
    rw [List.drop_eq_getElem_cons hj]
    have hget : map[start] = target := by
      rw [← List.getD_eq_getElem map MapValue.EMPTY hj]; exact htar
    simp only [lookupLoop, hget, hne, hh]
    simp
  | succ d ih =>
    intro hsj hrun hmatch
    have hslt : start < j := by omega
    have hstart_lt : start < map.length := lt_trans hslt hj
    rw [List.drop_eq_getElem_cons hstart_lt]
    have hgd : map.getD start MapValue.EMPTY = map[start] :=
      List.getD_eq_getElem map MapValue.EMPTY hstart_lt
    have hnemp : map[start].is_empty = false := by
      rw [← hgd]; exact hrun start (le_refl _) hslt
    simp only [lookupLoop, hnemp]
    by_cases hhash : map[start].hash = h
    · have : map.getD start MapValue.EMPTY = target :=
        hmatch start (le_refl _) hslt (by rw [hgd]; exact hhash)
      rw [hgd] at this
      simp [hhash, this, hh]
    · simp only [hhash, if_false, Bool.false_eq_true]
      exact ih (start + 1) (by omega) (by omega)
        (fun k hk1 hk2 => hrun k (by omega) hk2)
        (fun k hk1 hk2 hk3 => hmatch k (by omega) hk2 hk3)

theorem lookupLoop_miss (h : Nat) (l : List MapValue)
    (hno : ∀ v ∈ l, v.is_empty = false → v.hash ≠ h) :
    lookupLoop h l = MapValue.EMPTY := by
  induction l with
  | nil => rfl
  | cons v rest ih =>
    simp only [lookupLoop]
    by_cases he : v.is_empty = true
    · simp [he]
    · have he' : v.is_empty = false := Bool.eq_false_iff.mpr he
      have hv := hno v (List.mem_cons_self ..) he'
      simp only [he', Bool.false_eq_true, if_false, hv, if_false]
      exact ih (fun w hw hwe => hno w (List.mem_cons_of_mem _ hw) hwe)

theorem lookupStops_of_empty_mem (h : Nat) (l : List MapValue)
    (hx : ∃ v ∈ l, v.is_empty = true) : lookupStops h l = true := by
  induction l with
  | nil => simp at hx
  | cons v rest ih =>
    simp only [lookupStops]
    obtain ⟨w, hw, hwe⟩ := hx
    rcases List.mem_cons.mp hw with rfl | hw'
    · simp [hwe]
    · by_cases he : v.is_empty = true
      · simp [he]
      · by_cases hh : v.hash = h
        · simp [hh]
        · simp only [he, hh, Bool.false_eq_true, if_false]
          exact ih ⟨w, hw', hwe⟩

theorem lookupIters_le (h : Nat) (l : List MapValue) : lookupIters h l ≤ l.length := by
  induction l with
  | nil => simp [lookupIters]
  | cons v rest ih =>
    simp only [lookupIters, List.length_cons]
    split
    · omega
    · split
      · omega
      · omega

/-! ### Build pipeline facts -/

instance : IsTotal (Nat × Nat) (fun a b => a.2 ≤ b.2) :=
  ⟨fun a b => Nat.le_total a.2 b.2⟩

instance : IsTrans (Nat × Nat) (fun a b => a.2 ≤ b.2) :=
  ⟨fun _ _ _ h1 h2 => le_trans h1 h2⟩

theorem sortPairs_perm (pairs : List (Nat × Nat)) : (sortPairs pairs).Perm pairs :=
  List.perm_insertionSort _ _

theorem sortPairs_sorted (pairs : List (Nat × Nat)) :
    List.Sorted (fun a b => a.2 ≤ b.2) (sortPairs pairs) :=
  List.sorted_insertionSort _ _

theorem validPairs_mem_iff (kc : List (List Bool)) (hashes : List Nat) (p : Nat × Nat) :
    p ∈ validPairs kc hashes ↔
      p.1 < hashes.length ∧ key_is_valid kc p.1 = true ∧
        p.2 = MapValue.mask_hash (hashes.getD p.1 0) := by
  unfold validPairs
  rw [List.mem_filter, List.mem_enum_iff_getElem?]
  rw [List.getElem?_map]
  constructor
  · rintro ⟨hmem, hval⟩
    cases hh : hashes[p.1]? with
    | none => rw [hh] at hmem; cases hmem
    | some x =>
      rw [hh] at hmem
      simp only [Option.map_some'] at hmem
      have hlt : p.1 < hashes.length := by
        by_contra hge
        rw [List.getElem?_eq_none (by omega)] at hh
        cases hh
      refine ⟨hlt, hval, ?_⟩
      rw [List.getD_eq_getElem?_getD, hh]
      simp only [Option.getD_some]
      exact (Option.some_inj.mp hmem).symm
  · rintro ⟨hlt, hval, heq⟩
    refine ⟨?_, hval⟩
    rw [List.getElem?_eq_getElem hlt]
    simp only [Option.map_some', Option.some_inj]
    rw [heq, List.getD_eq_getElem hashes 0 hlt]

/-- All pair hashes are already masked. -/
theorem validPairs_snd_masked (kc : List (List Bool)) (hashes : List Nat) :
    ∀ p ∈ validPairs kc hashes, p.2 = MapValue.mask_hash p.2 := by
  intro p hp
  have := (validPairs_mem_iff kc hashes p).mp hp
  rw [this.2.2, MapValue.mask_hash_idem]

section BuildFacts

variable (kc : List (List Bool)) (hashes : List Nat)

theorem groups_ne : ∀ p ∈ chunkByHash (sortPairs (validPairs kc hashes)), p.2 ≠ [] :=
  chunkByHash_groups_ne_nil _

theorem groups_spec :
    List.Forall₂
      (itemSpec (buildGroups (chunkByHash (sortPairs (validPairs kc hashes))) []).2)
      (chunkByHash (sortPairs (validPairs kc hashes)))
      (buildGroups (chunkByHash (sortPairs (validPairs kc hashes))) []).1 :=
  buildGroups_spec _ _ (groups_ne kc hashes)

theorem items_ne :
    ∀ it ∈ (buildGroups (chunkByHash (sortPairs (validPairs kc hashes))) []).1,
      it.is_empty = false := by
  intro it hit
  obtain ⟨p, _, hspec⟩ := forall2_mem_right (groups_spec kc hashes) hit
  exact hspec.1

theorem groups_keys_masked :
    ∀ p ∈ chunkByHash (sortPairs (validPairs kc hashes)),
      p.1 = MapValue.mask_hash p.1 := by
  intro p hp
  have hk := chunkByHash_keys_mem _ p hp
  obtain ⟨q, hq, hq2⟩ := List.mem_map.mp hk
  have hq' : q ∈ validPairs kc hashes := (sortPairs_perm _).mem_iff.mp hq
  rw [← hq2]
  exact validPairs_snd_masked kc hashes q hq'

theorem groups_member_pairs :
    ∀ p ∈ chunkByHash (sortPairs (validPairs kc hashes)), ∀ i ∈ p.2,
      (i, p.1) ∈ validPairs kc hashes := by
  intro p hp i hi
  have hmem : (i, p.1) ∈ (chunkByHash (sortPairs (validPairs kc hashes))).flatMap
      (fun q => q.2.map (fun j => (j, q.1))) :=
    List.mem_flatMap.mpr ⟨p, hp, List.mem_map.mpr ⟨i, hi, rfl⟩⟩
  rw [chunkByHash_flatten] at hmem
  exact (sortPairs_perm _).mem_iff.mp hmem

theorem row_group (r : Nat) (hr : r < hashes.length) (hval : key_is_valid kc r = true) :
    ∃ p ∈ chunkByHash (sortPairs (validPairs kc hashes)),
      p.1 = MapValue.mask_hash (hashes.getD r 0) ∧ r ∈ p.2 := by
  have hpair : (r, MapValue.mask_hash (hashes.getD r 0)) ∈ validPairs kc hashes :=
    (validPairs_mem_iff kc hashes _).mpr ⟨hr, hval, rfl⟩
  have hsorted : (r, MapValue.mask_hash (hashes.getD r 0))
      ∈ sortPairs (validPairs kc hashes) :=
    (sortPairs_perm _).mem_iff.mpr hpair
  rw [← chunkByHash_flatten (sortPairs (validPairs kc hashes))] at hsorted
  obtain ⟨p, hp, hmem⟩ := List.mem_flatMap.mp hsorted
  obtain ⟨i, hi, heq⟩ := List.mem_map.mp hmem
  obtain ⟨h1, h2⟩ := Prod.mk.injEq .. ▸ heq
  exact ⟨p, hp, by rw [← h2], h1 ▸ hi⟩

theorem items_hash_distinct :
    List.Pairwise (fun u v : MapValue => u.hash ≠ v.hash)
      (buildGroups (chunkByHash (sortPairs (validPairs kc hashes))) []).1 := by
  have hchain := chunkByHash_keys_chain _ (sortPairs_sorted (validPairs kc hashes))
  have hpairw : List.Pairwise (· < ·)
      ((chunkByHash (sortPairs (validPairs kc hashes))).map Prod.fst) :=
    List.chain'_iff_pairwise.mp hchain
  rw [List.pairwise_map] at hpairw
  have hpairw2 : List.Pairwise (fun a b : Nat × List Nat =>
      MapValue.mask_hash a.1 ≠ MapValue.mask_hash b.1)
      (chunkByHash (sortPairs (validPairs kc hashes))) := by
    refine hpairw.imp_of_mem ?_
    intro a b ha hb hlt
    rw [← groups_keys_masked kc hashes a ha, ← groups_keys_masked kc hashes b hb]
    omega
  exact forall2_pairwise (groups_spec kc hashes) hpairw2
    (fun a b a2 b2 hab ha2b2 hS => by rw [hab.2.1, ha2b2.2.1]; exact hS)

theorem items_hash_inj (u v : MapValue)
    (hu : u ∈ (buildGroups (chunkByHash (sortPairs (validPairs kc hashes))) []).1)
    (hv : v ∈ (buildGroups (chunkByHash (sortPairs (validPairs kc hashes))) []).1)
    (h : u.hash = v.hash) : u = v := by
  by_contra hne
  have hsymm : Symmetric (fun u v : MapValue => u.hash ≠ v.hash) :=
    fun _ _ hxy he => hxy he.symm
  exact (items_hash_distinct kc hashes).forall hsymm hu hv hne h

end BuildFacts

theorem create_map_eq (kc : List (List Bool)) (hashes : List Nat) :
    (Table.create_from_key_columns kc hashes).map
      = buildMap (buildGroups (chunkByHash (sortPairs (validPairs kc hashes))) []).1
          ((buildGroups (chunkByHash (sortPairs (validPairs kc hashes))) []).1.length * 2
            + 1) := rfl

theorem create_map_mod_eq (kc : List (List Bool)) (hashes : List Nat) :
    (Table.create_from_key_columns kc hashes).map_mod
      = (buildGroups (chunkByHash (sortPairs (validPairs kc hashes))) []).1.length * 2
        + 1 := rfl

theorem create_mapped_indices_eq (kc : List (List Bool)) (hashes : List Nat) :
    (Table.create_from_key_columns kc hashes).mapped_indices
      = (buildGroups (chunkByHash (sortPairs (validPairs kc hashes))) []).2 := rfl

/-- C1: for every build row `r` whose key columns are all non-null, looking
up the 30-bit-masked hash of `r` in the constructed join table returns a
non-empty MapValue that is either a single MapValue whose index is `r`, or
a range MapValue whose `get_range` slice contains `r`. -/
theorem C1_lookup_soundness (kc : List (List Bool)) (hashes : List Nat)
    (hnum : hashes.length < 1073741824)
    (r : Nat) (hr : r < hashes.length) (hval : key_is_valid kc r = true) :
    ((Table.create_from_key_columns kc hashes).lookup
        (MapValue.mask_hash (hashes.getD r 0))).is_empty = false ∧
    ((((Table.create_from_key_columns kc hashes).lookup
        (MapValue.mask_hash (hashes.getD r 0))).is_single = true ∧
      ((Table.create_from_key_columns kc hashes).lookup
        (MapValue.mask_hash (hashes.getD r 0))).get_single = r) ∨
     (((Table.create_from_key_columns kc hashes).lookup
        (MapValue.mask_hash (hashes.getD r 0))).is_range = true ∧
      r ∈ ((Table.create_from_key_columns kc hashes).lookup
        (MapValue.mask_hash (hashes.getD r 0))).get_range
        (Table.create_from_key_columns kc hashes).mapped_indices)) := by
  obtain ⟨p, hp, hpk, hpr⟩ := row_group kc hashes r hr hval
  obtain ⟨item, hitem, hispec⟩ := forall2_mem_left (groups_spec kc hashes) hp
  have hmod : 0 < (buildGroups (chunkByHash (sortPairs (validPairs kc hashes))) []).1.length
      * 2 + 1 := by omega
  obtain ⟨j, hj1, hj2, hj3, hj4⟩ :=
    buildMap_placed _ _ hmod (items_ne kc hashes) item hitem
  have hitemne : item.is_empty = false := items_ne kc hashes item hitem
  have hitemhash : item.hash = MapValue.mask_hash (hashes.getD r 0) := by
    rw [hispec.2.1, hpk, MapValue.mask_hash_idem]
  have hlk : (Table.create_from_key_columns kc hashes).lookup
      (MapValue.mask_hash (hashes.getD r 0)) = item := by
    unfold Table.lookup
    rw [MapValue.mask_hash_idem, create_map_eq, create_map_mod_eq, ← hitemhash]
    refine lookupLoop_walk _ item.hash j item hj2 hj3 hitemne rfl _ hj1 hj4 ?_
    intro k hk1 hk2 hkh
    have hkne := hj4 k hk1 hk2
    have hklen : k < (buildMap
        (buildGroups (chunkByHash (sortPairs (validPairs kc hashes))) []).1
        ((buildGroups (chunkByHash (sortPairs (validPairs kc hashes))) []).1.length * 2
          + 1)).length := lt_trans hk2 hj2
    have hkmem : (buildMap
        (buildGroups (chunkByHash (sortPairs (validPairs kc hashes))) []).1
        ((buildGroups (chunkByHash (sortPairs (validPairs kc hashes))) []).1.length * 2
          + 1)).getD k MapValue.EMPTY ∈ buildMap
        (buildGroups (chunkByHash (sortPairs (validPairs kc hashes))) []).1
        ((buildGroups (chunkByHash (sortPairs (validPairs kc hashes))) []).1.length * 2
          + 1) := by
      rw [List.getD_eq_getElem _ _ hklen]
      exact List.getElem_mem hklen
    rcases buildMap_entries _ _ _ hkmem with he | hin
    · rw [he] at hkne
      cases hkne
    · exact items_hash_inj kc hashes _ item hin hitem hkh
  rw [hlk]
  refine ⟨hitemne, ?_⟩
  rcases hispec.2.2 with ⟨hsng, hlist⟩ | ⟨hrng, hget⟩
  · refine Or.inl ⟨hsng, ?_⟩
    rw [hlist] at hpr
    exact (List.mem_singleton.mp hpr).symm
  · refine Or.inr ⟨hrng, ?_⟩
    rw [create_mapped_indices_eq, hget]
    exact hpr

/-- Witness for C1 at a one-row build batch. -/
theorem C1_lookup_soundness_witness :
    ([5] : List Nat).length < 1073741824 ∧ 0 < ([5] : List Nat).length ∧
    key_is_valid [[true]] 0 = true ∧
    (((Table.create_from_key_columns [[true]] [5]).lookup
        (MapValue.mask_hash (([5] : List Nat).getD 0 0))).is_empty = false ∧
     ((((Table.create_from_key_columns [[true]] [5]).lookup
        (MapValue.mask_hash (([5] : List Nat).getD 0 0))).is_single = true ∧
       ((Table.create_from_key_columns [[true]] [5]).lookup
        (MapValue.mask_hash (([5] : List Nat).getD 0 0))).get_single = 0) ∨
      (((Table.create_from_key_columns [[true]] [5]).lookup
        (MapValue.mask_hash (([5] : List Nat).getD 0 0))).is_range = true ∧
       0 ∈ ((Table.create_from_key_columns [[true]] [5]).lookup
        (MapValue.mask_hash (([5] : List Nat).getD 0 0))).get_range
        (Table.create_from_key_columns [[true]] [5]).mapped_indices))) :=
  ⟨by decide, by decide, by decide,
    C1_lookup_soundness [[true]] [5] (by decide) 0 (by decide) (by decide)⟩

/-- C6: for every constructed join table and every 32-bit hash `h` such
that no valid build row's 30-bit-masked hash equals the mask of `h`,
`lookup h` returns the EMPTY MapValue. -/
theorem C6_lookup_miss (kc : List (List Bool)) (hashes : List Nat)
    (hnum : hashes.length < 1073741824) (h : Nat)
    (hmiss : ∀ r, r < hashes.length → key_is_valid kc r = true →
      MapValue.mask_hash (hashes.getD r 0) ≠ MapValue.mask_hash h) :
    (Table.create_from_key_columns kc hashes).lookup h = MapValue.EMPTY := by
  unfold Table.lookup
  apply lookupLoop_miss
  intro v hv hvne
  have hvmem : v ∈ (Table.create_from_key_columns kc hashes).map :=
    List.mem_of_mem_drop hv
  rw [create_map_eq] at hvmem
  rcases buildMap_entries _ _ v hvmem with he | hin
  · rw [he] at hvne
    cases hvne
  · obtain ⟨p, hp, hspec⟩ := forall2_mem_right (groups_spec kc hashes) hin
    obtain ⟨i, hi⟩ := List.exists_mem_of_ne_nil _ (groups_ne kc hashes p hp)
    have hfacts := (validPairs_mem_iff kc hashes (i, p.1)).mp
      (groups_member_pairs kc hashes p hp i hi)
    intro hcontra
    apply hmiss i hfacts.1 hfacts.2.1
    have hf3 : p.1 = MapValue.mask_hash (hashes.getD i 0) := hfacts.2.2
    have hvh : v.hash = MapValue.mask_hash (hashes.getD i 0) := by
      rw [hspec.2.1, hf3, MapValue.mask_hash_idem]
    rw [← hvh, hcontra]

/-- Witness for C6: a miss on a one-row table. -/
theorem C6_lookup_miss_witness :
    ([5] : List Nat).length < 1073741824 ∧
    (∀ r, r < ([5] : List Nat).length → key_is_valid [[true]] r = true →
      MapValue.mask_hash (([5] : List Nat).getD r 0) ≠ MapValue.mask_hash 6) ∧
    (Table.create_from_key_columns [[true]] [5]).lookup 6 = MapValue.EMPTY :=
  ⟨by decide, by decide,
    C6_lookup_miss [[true]] [5] (by decide) 6 (by decide)⟩

theorem getD_mem_of_lt (l : List MapValue) (n : Nat) (hn : n < l.length) :
    l.getD n MapValue.EMPTY ∈ l := by
  rw [List.getD_eq_getElem _ _ hn]
  exact List.getElem_mem hn

theorem getD_drop (l : List MapValue) (s n : Nat) :
    (l.drop s).getD n MapValue.EMPTY = l.getD (s + n) MapValue.EMPTY := by
  rw [List.getD_eq_getElem?_getD, List.getD_eq_getElem?_getD, List.getElem?_drop]

/-- C9: for every constructed join table and every `lookup hash` call with
masked hash `h`, the probe starts in bounds, stops at an empty slot or a
match before running past the end of the map (the map ends with an EMPTY
sentinel), and performs at most `map.len − (h % map_mod) + 1` iterations. -/
theorem C9_probe_terminates (kc : List (List Bool)) (hashes : List Nat)
    (hnum : hashes.length < 1073741824) (h : Nat) :
    MapValue.mask_hash h % (Table.create_from_key_columns kc hashes).map_mod
        < (Table.create_from_key_columns kc hashes).map.length ∧
    lookupStops (MapValue.mask_hash h)
      ((Table.create_from_key_columns kc hashes).map.drop
        (MapValue.mask_hash h % (Table.create_from_key_columns kc hashes).map_mod))
      = true ∧
    lookupIters (MapValue.mask_hash h)
      ((Table.create_from_key_columns kc hashes).map.drop
        (MapValue.mask_hash h % (Table.create_from_key_columns kc hashes).map_mod))
      ≤ (Table.create_from_key_columns kc hashes).map.length
        - MapValue.mask_hash h % (Table.create_from_key_columns kc hashes).map_mod
        + 1 := by
  have hmodpos : 0 < (Table.create_from_key_columns kc hashes).map_mod := by
    rw [create_map_mod_eq]
    omega
  have hmaplen : (Table.create_from_key_columns kc hashes).map_mod + 1
      ≤ (Table.create_from_key_columns kc hashes).map.length := by
    rw [create_map_mod_eq, create_map_eq]
    exact buildMap_length _ _
  have hstart : MapValue.mask_hash h % (Table.create_from_key_columns kc hashes).map_mod
      < (Table.create_from_key_columns kc hashes).map.length := by
    have := Nat.mod_lt (MapValue.mask_hash h) hmodpos
    omega
  refine ⟨hstart, ?_, ?_⟩
  · apply lookupStops_of_empty_mem
    have hlast : ((Table.create_from_key_columns kc hashes).map).getD
        ((Table.create_from_key_columns kc hashes).map.length - 1) MapValue.EMPTY
        = MapValue.EMPTY := by
      rw [create_map_eq]
      exact buildMap_last _ _
    have hlt : (Table.create_from_key_columns kc hashes).map.length - 1
        - MapValue.mask_hash h % (Table.create_from_key_columns kc hashes).map_mod
        < ((Table.create_from_key_columns kc hashes).map.drop
          (MapValue.mask_hash h % (Table.create_from_key_columns kc hashes).map_mod)).length := by
      rw [List.length_drop]
      omega
    have hsum : MapValue.mask_hash h % (Table.create_from_key_columns kc hashes).map_mod
        + ((Table.create_from_key_columns kc hashes).map.length - 1
          - MapValue.mask_hash h % (Table.create_from_key_columns kc hashes).map_mod)
        = (Table.create_from_key_columns kc hashes).map.length - 1 := by omega
    refine ⟨((Table.create_from_key_columns kc hashes).map.drop
        (MapValue.mask_hash h % (Table.create_from_key_columns kc hashes).map_mod)).getD
        ((Table.create_from_key_columns kc hashes).map.length - 1
          - MapValue.mask_hash h % (Table.create_from_key_columns kc hashes).map_mod)
        MapValue.EMPTY, getD_mem_of_lt _ _ hlt, ?_⟩
    rw [getD_drop, hsum, hlast]
    rfl
  · have := lookupIters_le (MapValue.mask_hash h)
      ((Table.create_from_key_columns kc hashes).map.drop
        (MapValue.mask_hash h % (Table.create_from_key_columns kc hashes).map_mod))
    rw [List.length_drop] at this
    omega

/-- Witness for C9 on a one-row table. -/
theorem C9_probe_terminates_witness :
    ([5] : List Nat).length < 1073741824 ∧
    (MapValue.mask_hash 6 % (Table.create_from_key_columns [[true]] [5]).map_mod
        < (Table.create_from_key_columns [[true]] [5]).map.length ∧
     lookupStops (MapValue.mask_hash 6)
      ((Table.create_from_key_columns [[true]] [5]).map.drop
        (MapValue.mask_hash 6 % (Table.create_from_key_columns [[true]] [5]).map_mod))
      = true ∧
     lookupIters (MapValue.mask_hash 6)
      ((Table.create_from_key_columns [[true]] [5]).map.drop
        (MapValue.mask_hash 6 % (Table.create_from_key_columns [[true]] [5]).map_mod))
      ≤ (Table.create_from_key_columns [[true]] [5]).map.length
        - MapValue.mask_hash 6 % (Table.create_from_key_columns [[true]] [5]).map_mod
        + 1) :=
  ⟨by decide, C9_probe_terminates [[true]] [5] (by decide) 6⟩

/-! ## IdxSelection and the count accumulator (agg/count.rs)

Modelled from the spec: `IdxSelection` and the `idx_for_zipped!` traversal
live in the aggregation framework (`agg/agg.rs`), which is not among the
sources under verification.  The spec fixes the three selection shapes and
the zip rule: a length-1 selection broadcasts over the other, otherwise
the lengths must be equal (anything else fails). -/
inductive IdxSelection where
  | single (i : Nat)
  | range (lo hi : Nat)
  | indices (is : List Nat)
deriving DecidableEq, Repr

def IdxSelection.toList : IdxSelection → List Nat
  | .single i => [i]
  | .range lo hi => List.range' lo (hi - lo)
  | .indices is => is

def IdxSelection.len (s : IdxSelection) : Nat := s.toList.length

/-- Modelled from the spec: zip two selections elementwise with singleton
broadcast; `none` models the failure on a length mismatch. -/
def zipSel (a b : IdxSelection) : Option (List (Nat × Nat)) :=
  if a.len = b.len then some (a.toList.zip b.toList)
  else if a.len = 1 then some (b.toList.map (fun j => (a.toList.headD 0, j)))
  else if b.len = 1 then some (a.toList.map (fun i => (i, b.toList.headD 0)))
  else none

/-- `AggCount::create_acc_column(n)`: `n` zeroed 64-bit counters. -/
def AggCount.create_acc_column (num_rows : Nat) : List Int :=
  List.replicate num_rows 0

/-- `AggCount::partial_update`: with no argument columns each zipped pair
increments its accumulator by 1; otherwise by 1 only when every argument
column is non-null at the pair's argument index.  Argument columns are
represented by their validity masks. -/
def AggCount.partial_update (values : List Int) (acc_idx : IdxSelection)
    (partial_args : List (List Bool)) (partial_arg_idx : IdxSelection) :
    Option (List Int) :=
  (zipSel acc_idx partial_arg_idx).map (fun pairs =>
    if partial_args.isEmpty then
      pairs.foldl (fun vs p => vs.set p.1 (vs.getD p.1 0 + 1)) values
    else
      pairs.foldl (fun vs p => vs.set p.1 (vs.getD p.1 0 +
        (if partial_args.all (fun arg => arg.getD p.2 false) then 1 else 0))) values)

/-- Run a sequence of `partial_update` calls
(`(acc_idx, partial_args, partial_arg_idx)` per call). -/
def runCountUpdates (values : List Int) :
    List (IdxSelection × List (List Bool) × IdxSelection) → Option (List Int)
  | [] => some values
  | c :: rest =>
    match AggCount.partial_update values c.1 c.2.1 c.2.2 with
    | some vs => runCountUpdates vs rest
    | none => none

/-- The number of zipped pairs of one call that hit group `g` (and, when
argument columns are present, have all of them non-null). -/
def countContribution (c : IdxSelection × List (List Bool) × IdxSelection) (g : Nat) : Nat :=
  match zipSel c.1 c.2.2 with
  | none => 0
  | some pairs =>
    if c.2.1.isEmpty then (pairs.filter (fun p => p.1 == g)).length
    else (pairs.filter (fun p =>
      p.1 == g && c.2.1.all (fun arg => arg.getD p.2 false))).length

theorem sum_map_one (l : List (Nat × Nat)) :
    (l.map (fun _ => (1 : Int))).sum = l.length := by
  induction l with
  | nil => simp
  | cons p rest ih =>
    simp only [List.map_cons, List.sum_cons, List.length_cons, ih]
    push_cast
    omega

theorem sum_map_indicator (l : List (Nat × Nat)) (g : Nat) (q : Nat × Nat → Bool) :
    ((l.filter (fun p => p.1 == g)).map (fun p => if q p then (1 : Int) else 0)).sum
      = ((l.filter (fun p => p.1 == g && q p)).length : Int) := by
  induction l with
  | nil => simp
  | cons p rest ih =>
    simp only [List.filter_cons]
    by_cases h1 : p.1 == g
    · by_cases h2 : q p
      · simp only [h1, h2, Bool.and_self, if_true, List.map_cons, List.sum_cons,
          List.length_cons, ih]
        push_cast
        omega
      · have h2' : q p = false := Bool.eq_false_iff.mpr h2
        simp only [h1, h2', Bool.and_false, Bool.false_eq_true, if_true, if_false,
          List.map_cons, List.sum_cons, ih]
        omega
    · have h1' : (p.1 == g) = false := Bool.eq_false_iff.mpr h1
      simp only [h1', Bool.false_and, Bool.false_eq_true, if_false, ih]

theorem foldl_set_add (pairs : List (Nat × Nat)) (w : Nat × Nat → Int)
    (values : List Int) (g : Nat)
    (hrange : ∀ p ∈ pairs, p.1 < values.length) :
    (pairs.foldl (fun vs p => vs.set p.1 (vs.getD p.1 0 + w p)) values).length
      = values.length ∧
    (pairs.foldl (fun vs p => vs.set p.1 (vs.getD p.1 0 + w p)) values).getD g 0
      = values.getD g 0 + ((pairs.filter (fun p => p.1 == g)).map w).sum := by
  induction pairs generalizing values with
  | nil => simp
  | cons p rest ih =>
    simp only [List.foldl_cons]
    have hplen : p.1 < values.length := hrange p (List.mem_cons_self ..)
    have hlen : (values.set p.1 (values.getD p.1 0 + w p)).length = values.length := by
      simp
    have hrange' : ∀ q ∈ rest,
        q.1 < (values.set p.1 (values.getD p.1 0 + w p)).length := by
      rw [hlen]
      exact fun q hq => hrange q (List.mem_cons_of_mem _ hq)
    obtain ⟨ihlen, ihval⟩ := ih _ hrange'
    refine ⟨by rw [ihlen, hlen], ?_⟩
    rw [ihval]
    by_cases hpg : p.1 = g
    · subst hpg
      have hset : (values.set p.1 (values.getD p.1 0 + w p)).getD p.1 0
          = values.getD p.1 0 + w p := by
        rw [List.getD_eq_getElem?_getD, List.getElem?_set_self hplen]
        rfl
      simp only [List.filter_cons, beq_self_eq_true, if_true, List.map_cons,
        List.sum_cons, hset]
      omega
    · have hset : (values.set p.1 (values.getD p.1 0 + w p)).getD g 0
          = values.getD g 0 := by
        rw [List.getD_eq_getElem?_getD, List.getElem?_set_ne hpg,
          ← List.getD_eq_getElem?_getD]
      have hpg' : (p.1 == g) = false := by simp [hpg]
      simp only [List.filter_cons, hpg', Bool.false_eq_true, if_false, hset]

theorem partial_update_getD (values : List Int) (acc_idx : IdxSelection)
    (args : List (List Bool)) (arg_idx : IdxSelection) (vs : List Int) (g : Nat)
    (hsome : AggCount.partial_update values acc_idx args arg_idx = some vs)
    (hrange : ∀ p ∈ (zipSel acc_idx arg_idx).getD [], p.1 < values.length) :
    vs.length = values.length ∧
    vs.getD g 0 = values.getD g 0
      + (countContribution (acc_idx, args, arg_idx) g : Int) := by
  unfold AggCount.partial_update at hsome
  cases hz : zipSel acc_idx arg_idx with
  | none => rw [hz] at hsome; cases hsome
  | some pairs =>
    rw [hz] at hsome hrange
    simp only [Option.map_some', Option.some_inj] at hsome
    simp only [Option.getD_some] at hrange
    have hcontrib : countContribution (acc_idx, args, arg_idx) g
        = if args.isEmpty then (pairs.filter (fun p => p.1 == g)).length
          else (pairs.filter (fun p =>
            p.1 == g && args.all (fun arg => arg.getD p.2 false))).length := by
      unfold countContribution
      rw [hz]
    by_cases hargs : args.isEmpty
    · rw [if_pos hargs] at hsome
      rw [hcontrib, if_pos hargs, ← hsome]
      obtain ⟨hl, hv⟩ := foldl_set_add pairs (fun _ => 1) values g hrange
      refine ⟨hl, ?_⟩
      rw [hv, sum_map_one]
    · rw [if_neg hargs] at hsome
      rw [hcontrib, if_neg hargs, ← hsome]
      obtain ⟨hl, hv⟩ := foldl_set_add pairs
        (fun p => if args.all (fun arg => arg.getD p.2 false) then (1 : Int) else 0)
        values g hrange
      refine ⟨hl, ?_⟩
      rw [hv, sum_map_indicator]

theorem runCountUpdates_getD
    (calls : List (IdxSelection × List (List Bool) × IdxSelection))
    (values : List Int) (result : List Int) (g : Nat)
    (hrun : runCountUpdates values calls = some result)
    (hrange : ∀ c ∈ calls, ∀ p ∈ (zipSel c.1 c.2.2).getD [], p.1 < values.length) :
    result.length = values.length ∧
    result.getD g 0 = values.getD g 0
      + (calls.map (fun c => (countContribution c g : Int))).sum := by
  induction calls generalizing values with
  | nil =>
    simp only [runCountUpdates, Option.some_inj] at hrun
    subst hrun
    simp
  | cons c rest ih =>
    unfold runCountUpdates at hrun
    cases hup : AggCount.partial_update values c.1 c.2.1 c.2.2 with
    | none => rw [hup] at hrun; cases hrun
    | some vs =>
      rw [hup] at hrun
      have hper := partial_update_getD values c.1 c.2.1 c.2.2 vs g hup
        (hrange c (List.mem_cons_self ..))
      have hrange' : ∀ d ∈ rest, ∀ p ∈ (zipSel d.1 d.2.2).getD [], p.1 < vs.length := by
        rw [hper.1]
        exact fun d hd => hrange d (List.mem_cons_of_mem _ hd)
      obtain ⟨ihl, ihv⟩ := ih vs hrun hrange'
      have heq : ((c.1, c.2.1, c.2.2) :
          IdxSelection × List (List Bool) × IdxSelection) = c := rfl
      rw [heq] at hper
      refine ⟨by rw [ihl, hper.1], ?_⟩
      rw [ihv, hper.2, List.map_cons, List.sum_cons]
      omega

/-- C2: starting from a fresh Count column of `num_rows` groups, after any
sequence of `partial_update` calls (each with in-range accumulator
indices), the value at group `g` is the total over calls of: the number of
zipped `(acc_idx, arg_idx)` pairs hitting `g` when the call has no
argument columns, and otherwise the number of such pairs whose argument
columns are all non-null at the pair's argument index. -/
theorem C2_count_partial_update (num_rows : Nat)
    (calls : List (IdxSelection × List (List Bool) × IdxSelection))
    (hrange : ∀ c ∈ calls, ∀ p ∈ (zipSel c.1 c.2.2).getD [], p.1 < num_rows)
    (g : Nat) (result : List Int)
    (hrun : runCountUpdates (AggCount.create_acc_column num_rows) calls = some result) :
    result.getD g 0 = (calls.map (fun c => (countContribution c g : Int))).sum := by
  have hlen : (AggCount.create_acc_column num_rows).length = num_rows := by
    simp [AggCount.create_acc_column]
  obtain ⟨_, hv⟩ := runCountUpdates_getD calls (AggCount.create_acc_column num_rows)
    result g hrun (by rw [hlen]; exact hrange)
  rw [hv]
  have hzero : (AggCount.create_acc_column num_rows).getD g 0 = 0 := by
    unfold AggCount.create_acc_column
    rw [List.getD_eq_getElem?_getD, List.getElem?_replicate]
    split <;> rfl
  rw [hzero, zero_add]

/-- Witness for C2: scenario with `acc_idx = [0,1,1,2,2,2]`, no argument
columns, and a second call with one nullable argument column. -/
theorem C2_count_partial_update_witness :
    (∀ c ∈ [((IdxSelection.indices [0, 1, 1, 2, 2, 2]), ([] : List (List Bool)),
        (IdxSelection.indices [0, 1, 2, 3, 4, 5])),
       ((IdxSelection.single 1), [[true, false, true, false]],
        (IdxSelection.indices [0, 1, 2, 3]))],
      ∀ p ∈ (zipSel c.1 c.2.2).getD [], p.1 < 3) ∧
    runCountUpdates (AggCount.create_acc_column 3)
      [((IdxSelection.indices [0, 1, 1, 2, 2, 2]), ([] : List (List Bool)),
        (IdxSelection.indices [0, 1, 2, 3, 4, 5])),
       ((IdxSelection.single 1), [[true, false, true, false]],
        (IdxSelection.indices [0, 1, 2, 3]))] = some [1, 4, 3] ∧
    ([1, 4, 3] : List Int).getD 1 0
      = ([((IdxSelection.indices [0, 1, 1, 2, 2, 2]), ([] : List (List Bool)),
        (IdxSelection.indices [0, 1, 2, 3, 4, 5])),
       ((IdxSelection.single 1), [[true, false, true, false]],
        (IdxSelection.indices [0, 1, 2, 3]))].map
          (fun c => (countContribution c 1 : Int))).sum :=
  ⟨by decide, by decide,
    C2_count_partial_update 3 _ (by decide) 1 _ (by decide)⟩

/-! ## Count column unfreeze (count.rs lines 185-197) -/

/-- One step per `(raw, offset)` pair: position a cursor at `offset`, read
one varint, store it at the next index, and record the new cursor
position.  Returns the updated values and the list of updated offsets. -/
def countUnfreezeLoop : List Int → Nat → List (List Nat × Nat) →
    Option (List Int × List Nat)
  | vs, _, [] => some (vs, [])
  | vs, idx, (raw, off) :: rest =>
    match read_len (raw.drop off) with
    | none => none
    | some (v, rem) =>
      match countUnfreezeLoop (vs.set idx (v : Int)) (idx + 1) rest with
      | some (vs2, offs2) => some (vs2, (raw.length - rem.length) :: offs2)
      | none => none

/-- `AccCountColumn::unfreeze_from_rows`: resize by the number of input
slices, then parse one varint per slice, advancing each offset.  Offsets
beyond the zip length are returned unchanged (the source zips the two
slices). -/
def AccCountColumn.unfreeze_from_rows (values : List Int) (array : List (List Nat))
    (offsets : List Nat) : Option (List Int × List Nat) :=
  match countUnfreezeLoop (values ++ List.replicate array.length 0) values.length
      (array.zip offsets) with
  | some (vs2, offs2) => some (vs2, offs2 ++ offsets.drop array.length)
  | none => none

/-! ## External UDAF accumulator column (spark_udaf_wrapper.rs)

The host-runtime row set behind the opaque JNI handle is modelled from the
spec: a list of opaque row byte strings, serialized as concatenated
records of a 4-byte big-endian length followed by that many bytes
(`serializeRows` / `deserializeRows` verbs of the host runtime). -/

structure AccUnsafeRowsColumn where
  rows : List (List Nat)
  num_rows : Nat
deriving DecidableEq, Repr

/-- Big-endian 4-byte encoding of a 32-bit value. -/
def u32be (x : Nat) : List Nat :=
  [x / 16777216 % 256, x / 65536 % 256, x / 256 % 256, x % 256]

/-- Modelled from the spec: the host runtime's `serializeRows` output for a
row list — each row as a 4-byte big-endian length prefix plus raw bytes,
concatenated. -/
def serializeRows (rows : List (List Nat)) : List Nat :=
  (rows.map (fun r => u32be r.length ++ r)).flatten

/-- Modelled from the spec: the host runtime's `deserializeRows`, splitting
the concatenated big-endian-length-prefixed records back into rows.  The
fuel argument only bounds the recursion (each step consumes at least four
bytes, so `l.length` fuel always suffices). -/
def deserializeRowsAux : Nat → List Nat → Option (List (List Nat))
  | _, [] => some []
  | 0, _ :: _ => none
  | fuel + 1, b0 :: b1 :: b2 :: b3 :: rest =>
    if ((b0 * 256 + b1) * 256 + b2) * 256 + b3 ≤ rest.length then
      match deserializeRowsAux fuel
          (rest.drop (((b0 * 256 + b1) * 256 + b2) * 256 + b3)) with
      | some rs => some (rest.take (((b0 * 256 + b1) * 256 + b2) * 256 + b3) :: rs)
      | none => none
    else none
  | _ + 1, _ => none

def deserializeRows (l : List Nat) : Option (List (List Nat)) :=
  deserializeRowsAux l.length l

/-- The `data`-building loop of `AccUnsafeRowsColumn::unfreeze_from_rows`:
per slice, read the varint length at the offset, emit the 4-byte
big-endian length and the payload bytes, and advance the offset past both.
`none` models the panic when the slice is too short. -/
def udafUnfreezeLoop : List (List Nat × Nat) → Option (List Nat × List Nat)
  | [] => some ([], [])
  | (row_data, off) :: rest =>
    match read_len (row_data.drop off) with
    | none => none
    | some (bytes_len, rem) =>
      if bytes_len ≤ (row_data.drop (row_data.length - rem.length)).length then
        match udafUnfreezeLoop rest with
        | some (data, offs) =>
          some (u32be bytes_len
              ++ (row_data.drop (row_data.length - rem.length)).take bytes_len
              ++ data,
            (row_data.length - rem.length + bytes_len) :: offs)
        | none => none
      else none

/-- `AccUnsafeRowsColumn::unfreeze_from_rows`: convert the varint-prefixed
slices into one concatenated big-endian-prefixed buffer, hand it to the
host runtime's `deserializeRows`, replace the held row-set handle with the
result, and set `num_rows` to the number of input slices. -/
def AccUnsafeRowsColumn.unfreeze_from_rows (_col : AccUnsafeRowsColumn)
    (array : List (List Nat)) (offsets : List Nat) :
    Option (AccUnsafeRowsColumn × List Nat) :=
  match udafUnfreezeLoop (array.zip offsets) with
  | none => none
  | some (data, offs2) =>
    match deserializeRows data with
    | none => none
    | some rows =>
      some ({ rows := rows, num_rows := array.length },
        offs2 ++ offsets.drop array.length)

/-- `AccUnsafeRowsColumn::spill`: serialize the selected rows through the
host runtime and write the concatenated records to the compressed stream. -/
def AccUnsafeRowsColumn.spill (col : AccUnsafeRowsColumn) (idx : IdxSelection) :
    List Nat :=
  serializeRows (idx.toList.map (fun i => col.rows.getD i []))

/-- The `data_len` pre-pass of `AccUnsafeRowsColumn::unspill`: for each of
the `num_rows` records it reads a 4-byte big-endian length at offset
`data_len` FROM THE FRESHLY CREATED EMPTY BUFFER `data` (`let mut data =
vec![]` in the source).  Reading past the end of that buffer (which
happens on the very first iteration) is modelled by `none` (the slice
indexing panics in the source). -/
def unspillDataLen : Nat → Nat → List Nat → Option Nat
  | 0, acc, _ => some acc
  | n + 1, acc, data =>
    if acc + 4 ≤ data.length then
      unspillDataLen n
        (acc + ((((data.getD acc 0 * 256 + data.getD (acc + 1) 0) * 256
          + data.getD (acc + 2) 0) * 256 + data.getD (acc + 3) 0) + 4)) data
    else none

/-- `AccUnsafeRowsColumn::unspill`: compute `data_len` (over the empty
local buffer), read that many bytes from the stream, deserialize them via
the host runtime, and set `num_rows`. -/
def AccUnsafeRowsColumn.unspill (_col : AccUnsafeRowsColumn) (num_rows : Nat)
    (stream : List Nat) : Option (AccUnsafeRowsColumn × List Nat) :=
  match unspillDataLen num_rows 0 [] with
  | none => none
  | some data_len =>
    if data_len ≤ stream.length then
      match deserializeRows (stream.take data_len) with
      | some rows => some ({ rows := rows, num_rows := num_rows }, stream.drop data_len)
      | none => none
    else none

theorem zip_getD (a : List (List Nat)) (b : List Nat) (i : Nat)
    (ha : i < a.length) (hb : i < b.length) :
    (a.zip b).getD i ([], 0) = (a.getD i [], b.getD i 0) := by
  have hz : i < (a.zip b).length := by
    rw [List.length_zip]
    exact lt_min ha hb
  rw [List.getD_eq_getElem _ _ hz, List.getElem_zip, List.getD_eq_getElem _ _ ha,
    List.getD_eq_getElem _ _ hb]

theorem countUnfreezeLoop_spec (pairs : List (List Nat × Nat)) (vs : List Int)
    (idx : Nat) (vs2 : List Int) (offs2 : List Nat)
    (h : countUnfreezeLoop vs idx pairs = some (vs2, offs2)) :
    vs2.length = vs.length ∧
    (∀ k, k < idx → vs2.getD k 0 = vs.getD k 0) ∧
    offs2.length = pairs.length ∧
    (∀ i, i < pairs.length → ∃ v rem,
      read_len ((pairs.getD i ([], 0)).1.drop (pairs.getD i ([], 0)).2)
        = some (v, rem) ∧
      offs2.getD i 0 = (pairs.getD i ([], 0)).1.length - rem.length) := by
  induction pairs generalizing vs idx offs2 with
  | nil =>
    simp only [countUnfreezeLoop, Option.some_inj] at h
    injection h with h1 h2
    subst h1
    subst h2
    exact ⟨rfl, fun k _ => rfl, rfl, fun i hi => absurd hi (by simp)⟩
  | cons p rest ih =>
    obtain ⟨raw, off⟩ := p
    simp only [countUnfreezeLoop] at h
    split at h
    · cases h
    · rename_i v rem hr
      split at h
      · rename_i vs2' offs2' hl
        simp only [Option.some_inj] at h
        injection h with h1 h2
        subst h1
        subst h2
        obtain ⟨ihl, ihpre, ihol, ihoff⟩ := ih _ _ _ hl
        refine ⟨by rw [ihl]; simp, ?_, by simp [ihol], ?_⟩
        · intro k hk
          rw [ihpre k (by omega), List.getD_eq_getElem?_getD,
            List.getElem?_set_ne (by omega : idx ≠ k), ← List.getD_eq_getElem?_getD]
        · intro i hi
          cases i with
          | zero =>
            exact ⟨v, rem, by simpa using hr, by simp⟩
          | succ j =>
            simp only [List.getD_cons_succ]
            exact ihoff j (by simpa using hi)
      · cases h

theorem count_unfreeze_spec (values : List Int) (array : List (List Nat))
    (offsets : List Nat) (hlen : offsets.length = array.length)
    (vs2 : List Int) (offs2 : List Nat)
    (h : AccCountColumn.unfreeze_from_rows values array offsets = some (vs2, offs2)) :
    vs2.length = values.length + array.length ∧
    (∀ k, k < values.length → vs2.getD k 0 = values.getD k 0) ∧
    (∀ i, i < array.length → ∃ v rem,
      read_len ((array.getD i []).drop (offsets.getD i 0)) = some (v, rem) ∧
      offs2.getD i 0 = (array.getD i []).length - rem.length) := by
  unfold AccCountColumn.unfreeze_from_rows at h
  cases hl : countUnfreezeLoop (values ++ List.replicate array.length 0)
      values.length (array.zip offsets) with
  | none => rw [hl] at h; cases h
  | some pr =>
    obtain ⟨vs2', offs2'⟩ := pr
    rw [hl] at h
    simp only [Option.some_inj] at h
    injection h with h1 h2
    subst h1
    subst h2
    obtain ⟨hle, hpre, hol, hoff⟩ := countUnfreezeLoop_spec _ _ _ _ _ hl
    have hziplen : (array.zip offsets).length = array.length := by
      rw [List.length_zip, hlen]
      exact min_self _
    refine ⟨by rw [hle]; simp, ?_, ?_⟩
    · intro k hk
      rw [hpre k hk, List.getD_append _ _ _ _ hk]
    · intro i hi
      obtain ⟨v, rem, hread, hoffv⟩ := hoff i (by omega)
      rw [zip_getD array offsets i hi (by omega)] at hread hoffv
      refine ⟨v, rem, hread, ?_⟩
      rw [List.getD_append _ _ _ _ (by omega), hoffv]

theorem udafUnfreezeLoop_spec (pairs : List (List Nat × Nat)) (data : List Nat)
    (offs : List Nat) (h : udafUnfreezeLoop pairs = some (data, offs)) :
    offs.length = pairs.length ∧
    (∀ i, i < pairs.length → ∃ blen rem,
      read_len ((pairs.getD i ([], 0)).1.drop (pairs.getD i ([], 0)).2)
        = some (blen, rem) ∧
      offs.getD i 0 = (pairs.getD i ([], 0)).1.length - rem.length + blen) := by
  induction pairs generalizing data offs with
  | nil =>
    simp only [udafUnfreezeLoop, Option.some_inj] at h
    injection h with _ h2
    subst h2
    exact ⟨rfl, fun i hi => absurd hi (by simp)⟩
  | cons p rest ih =>
    obtain ⟨raw, off⟩ := p
    simp only [udafUnfreezeLoop] at h
    split at h
    · cases h
    · rename_i blen rem hr
      split at h
      · split at h
        · rename_i data' offs' hl
          simp only [Option.some_inj] at h
          injection h with _ h2
          subst h2
          obtain ⟨ihol, ihoff⟩ := ih _ _ hl
          refine ⟨by simp [ihol], ?_⟩
          intro i hi
          cases i with
          | zero =>
            exact ⟨blen, rem, by simpa using hr, by simp⟩
          | succ j =>
            simp only [List.getD_cons_succ]
            exact ihoff j (by simpa using hi)
        · cases h
      · cases h

theorem udaf_unfreeze_spec (col : AccUnsafeRowsColumn) (array : List (List Nat))
    (offsets : List Nat) (hlen : offsets.length = array.length)
    (res : AccUnsafeRowsColumn) (offs2 : List Nat)
    (h : AccUnsafeRowsColumn.unfreeze_from_rows col array offsets
      = some (res, offs2)) :
    res.num_rows = array.length ∧
    (∀ i, i < array.length → ∃ blen rem,
      read_len ((array.getD i []).drop (offsets.getD i 0)) = some (blen, rem) ∧
      offs2.getD i 0 = (array.getD i []).length - rem.length + blen) := by
  unfold AccUnsafeRowsColumn.unfreeze_from_rows at h
  split at h
  · cases h
  · rename_i data offs' hl
    split at h
    · cases h
    · rename_i rows hd
      simp only [Option.some_inj] at h
      injection h with h1 h2
      subst h1
      subst h2
      obtain ⟨hol, hoff⟩ := udafUnfreezeLoop_spec _ _ _ hl
      have hziplen : (array.zip offsets).length = array.length := by
        rw [List.length_zip, hlen]
        exact min_self _
      refine ⟨rfl, ?_⟩
      intro i hi
      obtain ⟨blen, rem, hread, hoffv⟩ := hoff i (by omega)
      rw [zip_getD array offsets i hi (by omega)] at hread hoffv
      refine ⟨blen, rem, hread, ?_⟩
      rw [List.getD_append _ _ _ _ (by omega), hoffv]

/-- Counterexample to C7 as stated: a UDAF column holding one row
(`num_records = 1`) given one input slice ends with `num_records = 1`,
not `1 + 1`: `unfreeze_from_rows` replaces the host row set instead of
appending to it (`self.num_rows = array.len()` in the source). -/
theorem C7_unfreeze_counterexample :
    (AccUnsafeRowsColumn.unfreeze_from_rows ⟨[[]], 1⟩ [[0]] [0]).map
        (fun r => r.1.num_rows) = some 1 ∧ (1 : Nat) ≠ 1 + 1 := by
  constructor
  · rfl
  · decide

/-- C7 (amended): `unfreeze_from_rows` parses one row per input slice and
advances each offset past exactly the bytes consumed.  The Count column
appends: `num_records` grows by the number of slices and the previously
held rows are unchanged.  The external-UDAF column instead replaces its
row set: afterwards `num_records` equals the number of input slices (the
offsets are still advanced past the varint length prefix plus payload). -/
theorem C7_unfreeze_from_rows (values : List Int) (array : List (List Nat))
    (offsets : List Nat) (hlen : offsets.length = array.length)
    (vs2 : List Int) (offs2 : List Nat)
    (hc : AccCountColumn.unfreeze_from_rows values array offsets = some (vs2, offs2))
    (col : AccUnsafeRowsColumn) (uarray : List (List Nat)) (uoffsets : List Nat)
    (hulen : uoffsets.length = uarray.length)
    (ucol : AccUnsafeRowsColumn) (uoffs2 : List Nat)
    (hu : AccUnsafeRowsColumn.unfreeze_from_rows col uarray uoffsets
      = some (ucol, uoffs2)) :
    vs2.length = values.length + array.length ∧
    (∀ k, k < values.length → vs2.getD k 0 = values.getD k 0) ∧
    (∀ i, i < array.length → ∃ v rem,
      read_len ((array.getD i []).drop (offsets.getD i 0)) = some (v, rem) ∧
      offs2.getD i 0 = (array.getD i []).length - rem.length) ∧
    ucol.num_rows = uarray.length ∧
    (∀ i, i < uarray.length → ∃ blen rem,
      read_len ((uarray.getD i []).drop (uoffsets.getD i 0)) = some (blen, rem) ∧
      uoffs2.getD i 0 = (uarray.getD i []).length - rem.length + blen) := by
  obtain ⟨h1, h2, h3⟩ := count_unfreeze_spec values array offsets hlen vs2 offs2 hc
  obtain ⟨h4, h5⟩ := udaf_unfreeze_spec col uarray uoffsets hulen ucol uoffs2 hu
  exact ⟨h1, h2, h3, h4, h5⟩

/-- Witness for the amended C7: one Count slice holding varint 7 and one
UDAF slice holding a varint-1-prefixed single byte. -/
theorem C7_unfreeze_from_rows_witness :
    ([0] : List Nat).length = ([[7]] : List (List Nat)).length ∧
    AccCountColumn.unfreeze_from_rows [5] [[7]] [0] = some ([5, 7], [1]) ∧
    ([0] : List Nat).length = ([[1, 99]] : List (List Nat)).length ∧
    AccUnsafeRowsColumn.unfreeze_from_rows ⟨[], 0⟩ [[1, 99]] [0]
      = some (⟨[[99]], 1⟩, [2]) ∧
    (([5, 7] : List Int).length = ([5] : List Int).length + 1 ∧
     (∀ k, k < ([5] : List Int).length →
        ([5, 7] : List Int).getD k 0 = ([5] : List Int).getD k 0) ∧
     (∀ i, i < ([[7]] : List (List Nat)).length → ∃ v rem,
        read_len ((([[7]] : List (List Nat)).getD i []).drop
          (([0] : List Nat).getD i 0)) = some (v, rem) ∧
        ([1] : List Nat).getD i 0
          = (([[7]] : List (List Nat)).getD i []).length - rem.length) ∧
     (⟨[[99]], 1⟩ : AccUnsafeRowsColumn).num_rows = ([[1, 99]] : List (List Nat)).length ∧
     (∀ i, i < ([[1, 99]] : List (List Nat)).length → ∃ blen rem,
        read_len ((([[1, 99]] : List (List Nat)).getD i []).drop
          (([0] : List Nat).getD i 0)) = some (blen, rem) ∧
        ([2] : List Nat).getD i 0
          = (([[1, 99]] : List (List Nat)).getD i []).length - rem.length + blen)) :=
  ⟨by decide, by decide, by decide, by decide,
    C7_unfreeze_from_rows [5] [[7]] [0] (by decide) [5, 7] [1] (by decide)
      ⟨[], 0⟩ [[1, 99]] [0] (by decide) ⟨[[99]], 1⟩ [2] (by decide)⟩

/-- C8: the source's `unspill` computes the inner `data_len` by indexing
4-byte chunks out of a freshly created empty buffer, so for every
`num_rows ≥ 1` it fails before reading anything from the stream. -/
theorem C8_unspill_fails (col : AccUnsafeRowsColumn) (n : Nat) (hn : 1 ≤ n)
    (stream : List Nat) :
    AccUnsafeRowsColumn.unspill col n stream = none := by
  unfold AccUnsafeRowsColumn.unspill
  cases n with
  | zero => omega
  | succ m =>
    simp [unspillDataLen]

/-- Witness for C8: unspilling one row from the stream that `spill` itself
produced for one selected row still fails. -/
theorem C8_unspill_fails_witness :
    (1 : Nat) ≤ 1 ∧
    AccUnsafeRowsColumn.unspill ⟨[], 0⟩ 1
      (AccUnsafeRowsColumn.spill ⟨[[9]], 1⟩ (IdxSelection.single 0)) = none :=
  ⟨by decide, C8_unspill_fails ⟨[], 0⟩ 1 (by decide) _⟩

/-! ## Record batches and the hash-map batch (join_hash_map.rs lines 310-394) -/

inductive ArrowType where
  | binary
  | other (tyname : String)
deriving DecidableEq, Repr

structure ArrowField where
  name : String
  dtype : ArrowType
  nullable : Bool
deriving DecidableEq, Repr

/-- A record batch: schema fields plus one column of optional cells per
field (a cell is its byte representation; `none` is a null). -/
structure RecordBatch where
  fields : List ArrowField
  num_rows : Nat
  columns : List (List (Option (List Nat)))
deriving DecidableEq, Repr

/-- `RecordBatch::new_empty`: zero rows, one empty column per field. -/
def RecordBatch.new_empty (fields : List ArrowField) : RecordBatch :=
  { fields := fields, num_rows := 0, columns := fields.map (fun _ => []) }

/-- The static `~TABLE` binary field. -/
def join_table_field : ArrowField := ⟨"~TABLE", ArrowType.binary, true⟩

/-- `join_hash_map_schema`: every data field made nullable, then the
trailing `~TABLE` field. -/
def join_hash_map_schema (data_fields : List ArrowField) : List ArrowField :=
  data_fields.map (fun f => { f with nullable := true }) ++ [join_table_field]

/-- `JoinHashMap`: the build batch, the evaluated key columns (validity
masks) and the table. -/
structure JoinHashMap where
  data_batch : RecordBatch
  key_columns : List (List Bool)
  table : Table

/-- `JoinHashMap::into_hash_map_batch`: an empty build batch yields an
empty schema-only batch; otherwise append one binary column whose row 0 is
the serialized table (`append_value`) and whose remaining rows are null
(the `append_null` loop over `1..num_rows`). -/
def JoinHashMap.into_hash_map_batch (m : JoinHashMap) : RecordBatch :=
  if m.data_batch.num_rows = 0 then
    RecordBatch.new_empty (join_hash_map_schema m.data_batch.fields)
  else
    { fields := join_hash_map_schema m.data_batch.fields
      num_rows := m.data_batch.num_rows
      columns := m.data_batch.columns ++
        [some m.table.try_into_raw_bytes
          :: List.replicate (m.data_batch.num_rows - 1) none] }

/-- C4: with at least one data row, `into_hash_map_batch` returns a batch
whose schema is the data schema with every field made nullable plus one
trailing binary `~TABLE` field; row 0 of the trailing column holds the
serialized table bytes and every other row of it is null.  With zero data
rows it returns the empty batch carrying only that schema. -/
theorem C4_into_hash_map_batch (m : JoinHashMap) :
    (0 < m.data_batch.num_rows →
      (m.into_hash_map_batch).fields
        = m.data_batch.fields.map (fun f => { f with nullable := true })
          ++ [⟨"~TABLE", ArrowType.binary, true⟩] ∧
      (m.into_hash_map_batch).num_rows = m.data_batch.num_rows ∧
      ∃ tcol, (m.into_hash_map_batch).columns = m.data_batch.columns ++ [tcol] ∧
        tcol.length = m.data_batch.num_rows ∧
        tcol.getD 0 none = some m.table.try_into_raw_bytes ∧
        (∀ i, 0 < i → i < m.data_batch.num_rows → tcol.getD i none = none)) ∧
    (m.data_batch.num_rows = 0 →
      m.into_hash_map_batch
        = RecordBatch.new_empty (join_hash_map_schema m.data_batch.fields)) := by
  constructor
  · intro hpos
    unfold JoinHashMap.into_hash_map_batch
    rw [if_neg (by omega)]
    refine ⟨rfl, rfl, some m.table.try_into_raw_bytes
      :: List.replicate (m.data_batch.num_rows - 1) none, rfl, ?_, rfl, ?_⟩
    · simp
      omega
    · intro i hi0 hin
      cases i with
      | zero => omega
      | succ j =>
        rw [List.getD_cons_succ, List.getD_eq_getElem?_getD, List.getElem?_replicate]
        rw [if_pos (by omega)]
        rfl
  · intro hzero
    unfold JoinHashMap.into_hash_map_batch
    rw [if_pos hzero]

/-- Witness for C4: a two-row build batch. -/
theorem C4_into_hash_map_batch_witness :
    (0 : Nat) < 2 ∧
    ((JoinHashMap.mk ⟨[⟨"a", ArrowType.other "int", false⟩], 2, [[some [1], some [2]]]⟩
        [[true, true]] ⟨0, 1, [MapValue.EMPTY], []⟩).into_hash_map_batch.fields
        = ([⟨"a", ArrowType.other "int", false⟩] : List ArrowField).map
            (fun f => { f with nullable := true })
          ++ [⟨"~TABLE", ArrowType.binary, true⟩] ∧
     (JoinHashMap.mk ⟨[⟨"a", ArrowType.other "int", false⟩], 2, [[some [1], some [2]]]⟩
        [[true, true]] ⟨0, 1, [MapValue.EMPTY], []⟩).into_hash_map_batch.num_rows = 2 ∧
     ∃ tcol, (JoinHashMap.mk ⟨[⟨"a", ArrowType.other "int", false⟩], 2,
          [[some [1], some [2]]]⟩ [[true, true]]
          ⟨0, 1, [MapValue.EMPTY], []⟩).into_hash_map_batch.columns
        = [[some [1], some [2]]] ++ [tcol] ∧
       tcol.length = 2 ∧
       tcol.getD 0 none
        = some (Table.try_into_raw_bytes ⟨0, 1, [MapValue.EMPTY], []⟩) ∧
       (∀ i, 0 < i → i < 2 → tcol.getD i none = none)) :=
  ⟨by decide,
    (C4_into_hash_map_batch (JoinHashMap.mk
      ⟨[⟨"a", ArrowType.other "int", false⟩], 2, [[some [1], some [2]]]⟩
      [[true, true]] ⟨0, 1, [MapValue.EMPTY], []⟩)).1 (by decide)⟩

/-! ## Headless Arrow IPC codec (ipc.rs)

`write_one_batch` / `read_one_batch` and the headless stream writer/reader
are in `ipc.rs`; the byte-level encoding of one record batch
(`IpcDataGenerator::encoded_batch`, `read_record_batch`, the flatbuffer
message metadata) and the zstd codec are external arrow-rs/zstd
collaborators, modelled from the spec: a message is a continuation marker,
a 4-byte little-endian metadata length, the metadata (here: a header tag,
the 8-byte body length and the row count) and the body; zstd is modelled
by the identity codec (the spec relies only on decode ∘ encode = id).
Our cell model encodes no dictionary-typed columns, so `encoded_batch`
produces no dictionary messages; the reader still handles them. -/

/-- Modelled from the spec: one cell of the record-batch body — a null
flag, then a varint byte length and the raw bytes for non-null cells. -/
def encodeCell : Option (List Nat) → List Nat
  | none => [0]
  | some bytes => 1 :: (write_len bytes.length ++ bytes)

def encodeColumn (col : List (Option (List Nat))) : List Nat :=
  (col.map encodeCell).flatten

/-- Modelled from the spec: the record-batch body — the columns one after
another. -/
def encodeBatchBody (b : RecordBatch) : List Nat :=
  (b.columns.map encodeColumn).flatten

/-- Modelled from the spec: the flatbuffer message metadata, reduced to
the fields the reader consults: header tag (0 = NONE, 1 = RecordBatch,
2 = DictionaryBatch), `bodyLength`, and the row count. -/
def messageMeta (tag bodyLength num_rows : Nat) : List Nat :=
  tag :: (u64le bodyLength ++ write_len num_rows)

def readU64le : List Nat → Option (Nat × List Nat)
  | a0 :: a1 :: a2 :: a3 :: a4 :: a5 :: a6 :: a7 :: rest =>
    some (decodeU32le a0 a1 a2 a3 + 4294967296 * decodeU32le a4 a5 a6 a7, rest)
  | _ => none

/-- Modelled from the spec: `root_as_message` plus the header-type /
bodyLength / row-count accessors. -/
def parseMessageMeta (meta : List Nat) : Option (Nat × Nat × Nat) :=
  match meta with
  | tag :: rest =>
    match readU64le rest with
    | some (bodyLength, rest2) =>
      match read_len rest2 with
      | some (num_rows, _) => some (tag, bodyLength, num_rows)
      | none => none
    | none => none
  | [] => none

def readCell : List Nat → Option (Option (List Nat) × List Nat)
  | 0 :: rest => some (none, rest)
  | 1 :: rest =>
    match read_len rest with
    | some (n, rest2) =>
      if n ≤ rest2.length then some (some (rest2.take n), rest2.drop n) else none
    | none => none
  | _ => none

def readColumn : Nat → List Nat → Option (List (Option (List Nat)) × List Nat)
  | 0, bs => some ([], bs)
  | n + 1, bs =>
    match readCell bs with
    | some (c, rest) =>
      match readColumn n rest with
      | some (cs, rest2) => some (c :: cs, rest2)
      | none => none
    | none => none

def readColumns : Nat → Nat → List Nat →
    Option (List (List (Option (List Nat))) × List Nat)
  | 0, _, bs => some ([], bs)
  | k + 1, n, bs =>
    match readColumn n bs with
    | some (col, rest) =>
      match readColumns k n rest with
      | some (cols, rest2) => some (col :: cols, rest2)
      | none => none
    | none => none

/-- Modelled from the spec: arrow's `read_record_batch`, reconstructing
column data from the body given the out-of-band schema and the metadata's
row count. -/
def read_record_batch (num_fields num_rows : Nat) (body : List Nat) :
    Option (List (List (Option (List Nat)))) :=
  match readColumns num_fields num_rows body with
  | some (cols, _) => some cols
  | none => none

/-- Modelled from the spec: the zstd streaming codec, represented by the
identity codec. -/
def zstdCompress (bytes : List Nat) : List Nat := bytes

def zstdDecompress (bytes : List Nat) : List Nat := bytes

/-- Modelled from the spec: arrow's `write_message` — continuation marker
`0xFFFFFFFF`, 4-byte little-endian metadata length, metadata, body. -/
def write_message (meta body : List Nat) : List Nat :=
  [255, 255, 255, 255] ++ u32le meta.length ++ meta ++ body

/-- `HeadlessStreamWriter::write` for one batch: the (empty) dictionary
messages, then the record-batch message. -/
def headless_write (b : RecordBatch) : List Nat :=
  write_message (messageMeta 1 (encodeBatchBody b).length b.num_rows)
    (encodeBatchBody b)

/-- `write_one_batch`: nothing for an empty batch, otherwise the 8-byte
little-endian total length of the (optionally compressed) stream bytes
followed by those bytes; returns the bytes and the byte count (the
source's return value `end_pos - start_pos`). -/
def write_one_batch (b : RecordBatch) (compress : Bool) : List Nat × Nat :=
  if b.num_rows = 0 then ([], 0)
  else
    ((fun payload => (u64le payload.length ++ payload, 8 + payload.length))
      (if compress then zstdCompress (headless_write b) else headless_write b))

/-- `HeadlessStreamReader::maybe_next` (ipc.rs lines 117-203), with fuel
for the dictionary-message recursion.  Result: `none` is an error,
`some none` is stream end with no batch, `some (some batch)` is a batch.
Fewer than 4 bytes at the start is the UnexpectedEof caught as stream
end; a 4-byte `0xFFFFFFFF` continuation marker is skipped; a zero
metadata length ends the stream; RecordBatch yields a batch, a
DictionaryBatch consumes its body and loops, NONE yields no batch, any
other header type is an error. -/
def maybeNextAux (fields : List ArrowField) : Nat → List Nat → Option (Option RecordBatch)
  | 0, _ => none
  | fuel + 1, stream =>
    if stream.length < 4 then some none
    else
      match (if stream.take 4 = [255, 255, 255, 255]
          then (stream.drop 4).take 4 else stream.take 4) with
      | [m0, m1, m2, m3] =>
        if (if stream.take 4 = [255, 255, 255, 255]
            then (stream.drop 4).length < 4 else False) then none
        else
          let rest := if stream.take 4 = [255, 255, 255, 255]
            then stream.drop 8 else stream.drop 4
          let meta_len := decodeU32le m0 m1 m2 m3
          if meta_len = 0 then some none
          else if meta_len ≤ rest.length then
            match parseMessageMeta (rest.take meta_len) with
            | none => none
            | some (tag, bodyLength, num_rows) =>
              if tag = 1 then
                if bodyLength ≤ (rest.drop meta_len).length then
                  match read_record_batch fields.length num_rows
                      ((rest.drop meta_len).take bodyLength) with
                  | some cols => some (some ⟨fields, num_rows, cols⟩)
                  | none => none
                else none
              else if tag = 2 then
                if bodyLength ≤ (rest.drop meta_len).length then
                  maybeNextAux fields fuel ((rest.drop meta_len).drop bodyLength)
                else none
              else if tag = 0 then some none
              else none
          else none
      | _ => none

def maybe_next (fields : List ArrowField) (stream : List Nat) :
    Option (Option RecordBatch) :=
  maybeNextAux fields (stream.length + 1) stream

/-- `read_one_batch`: consume the 8-byte little-endian length header when
asked, restrict to that many bytes, optionally un-zstd, then pull one
batch; the source's `.unwrap()` on a missing batch is an error. -/
def read_one_batch (fields : List ArrowField) (compress : Bool)
    (has_length_header : Bool) (input : List Nat) : Option RecordBatch :=
  match (if has_length_header then
      match readU64le input with
      | some (len, rest) =>
        if len ≤ rest.length then some (rest.take len) else none
      | none => none
    else some input) with
  | none => none
  | some bytes =>
    match maybe_next fields (if compress then zstdDecompress bytes else bytes) with
    | some (some b) => some b
    | _ => none

theorem readU64le_u64le (x : Nat) (hx : x < 18446744073709551616) (tail : List Nat) :
    readU64le (u64le x ++ tail) = some (x, tail) := by
  simp only [u64le, u32le, List.cons_append, List.nil_append, readU64le,
    Option.some_inj, decodeU32le, Prod.mk.injEq, and_true]
  omega

theorem write_len_length_le (k : Nat) : ∀ n, 0 < k → n < 128 ^ k →
    (write_len n).length ≤ k := by
  induction k with
  | zero => omega
  | succ k ih =>
    intro n _ h
    rw [write_len_eq]
    by_cases hn : n < 128
    · rw [if_pos hn]
      simp
    · rw [if_neg hn]
      simp only [List.length_cons]
      have hk0 : 0 < k := by
        rcases Nat.eq_zero_or_pos k with rfl | h'
        · rw [pow_one] at h
          omega
        · exact h'
      have hdiv : n / 128 < 128 ^ k := by
        rw [pow_succ, mul_comm] at h
        exact Nat.div_lt_of_lt_mul h
      have := ih (n / 128) hk0 hdiv
      omega

theorem parseMessageMeta_messageMeta (tag bodyLength num_rows : Nat)
    (hb : bodyLength < 18446744073709551616) :
    parseMessageMeta (messageMeta tag bodyLength num_rows)
      = some (tag, bodyLength, num_rows) := by
  have hrl : read_len (write_len num_rows) = some (num_rows, []) := by
    have := read_len_write_len num_rows []
    simpa using this
  simp only [messageMeta, parseMessageMeta, readU64le_u64le _ hb, hrl]

theorem readCell_encodeCell (c : Option (List Nat)) (tail : List Nat) :
    readCell (encodeCell c ++ tail) = some (c, tail) := by
  cases c with
  | none => rfl
  | some bytes =>
    simp only [encodeCell, List.cons_append, readCell, List.append_assoc,
      read_len_write_len]
    rw [if_pos (by simp)]
    rw [List.take_left, List.drop_left]

theorem readColumn_encodeColumn (col : List (Option (List Nat))) (tail : List Nat) :
    readColumn col.length (encodeColumn col ++ tail) = some (col, tail) := by
  induction col with
  | nil => simp [encodeColumn, readColumn]
  | cons c cs ih =>
    simp only [encodeColumn, List.map_cons, List.flatten_cons, List.append_assoc,
      List.length_cons, readColumn]
    simp only [encodeColumn] at ih
    simp only [readCell_encodeCell, ih]

theorem readColumn_encodeColumn2 (col : List (Option (List Nat))) (n : Nat)
    (tail : List Nat) (h : col.length = n) :
    readColumn n (encodeColumn col ++ tail) = some (col, tail) :=
  h ▸ readColumn_encodeColumn col tail

theorem readColumns_encode (cols : List (List (Option (List Nat)))) (n : Nat)
    (tail : List Nat) (hlen : ∀ col ∈ cols, col.length = n) :
    readColumns cols.length n ((cols.map encodeColumn).flatten ++ tail)
      = some (cols, tail) := by
  induction cols with
  | nil => simp [readColumns]
  | cons col cs ih =>
    simp only [List.map_cons, List.flatten_cons, List.append_assoc,
      List.length_cons, readColumns]
    have hcol := hlen col (List.mem_cons_self ..)
    simp only [readColumn_encodeColumn2 col n _ hcol,
      ih (fun c hc => hlen c (List.mem_cons_of_mem _ hc))]

theorem read_record_batch_encode (b : RecordBatch)
    (hcols : b.columns.length = b.fields.length)
    (hclen : ∀ col ∈ b.columns, col.length = b.num_rows) :
    read_record_batch b.fields.length b.num_rows (encodeBatchBody b)
      = some b.columns := by
  unfold read_record_batch encodeBatchBody
  rw [← hcols,
    show (b.columns.map encodeColumn).flatten
      = (b.columns.map encodeColumn).flatten ++ [] by simp,
    readColumns_encode b.columns b.num_rows [] hclen]

theorem maybeNext_headless_write (b : RecordBatch) (fuel : Nat) (hfuel : 0 < fuel)
    (hcols : b.columns.length = b.fields.length)
    (hclen : ∀ col ∈ b.columns, col.length = b.num_rows)
    (hnr : b.num_rows < 18446744073709551616)
    (hbody : (encodeBatchBody b).length < 18446744073709551616) :
    maybeNextAux b.fields fuel (headless_write b) = some (some b) := by
  cases fuel with
  | zero => omega
  | succ f =>
    have hwl : (write_len b.num_rows).length ≤ 10 :=
      write_len_length_le 10 b.num_rows (by omega)
        (lt_trans hnr (by norm_num))
    have hmlen : (messageMeta 1 (encodeBatchBody b).length b.num_rows).length
        = 9 + (write_len b.num_rows).length := by
      simp [messageMeta, u64le, u32le]
      omega
    have hassoc : headless_write b
        = [255, 255, 255, 255]
          ++ (u32le (messageMeta 1 (encodeBatchBody b).length b.num_rows).length
            ++ (messageMeta 1 (encodeBatchBody b).length b.num_rows
              ++ encodeBatchBody b)) := by
      simp [headless_write, write_message]
    have hslen : (headless_write b).length
        = 8 + (messageMeta 1 (encodeBatchBody b).length b.num_rows).length
          + (encodeBatchBody b).length := by
      rw [hassoc]
      simp [u32le]
      omega
    have htake4 : (headless_write b).take 4 = [255, 255, 255, 255] := by
      rw [hassoc]
      exact List.take_left' rfl
    have hdrop4 : (headless_write b).drop 4
        = u32le (messageMeta 1 (encodeBatchBody b).length b.num_rows).length
          ++ (messageMeta 1 (encodeBatchBody b).length b.num_rows
            ++ encodeBatchBody b) := by
      rw [hassoc]
      exact List.drop_left' rfl
    have hdrop4take : ((headless_write b).drop 4).take 4
        = u32le (messageMeta 1 (encodeBatchBody b).length b.num_rows).length := by
      rw [hdrop4]
      exact List.take_left' rfl
    have hdrop4len : ((headless_write b).drop 4).length
        = 4 + ((messageMeta 1 (encodeBatchBody b).length b.num_rows).length
          + (encodeBatchBody b).length) := by
      rw [hdrop4]
      simp [u32le]
      omega
    have hdrop8 : (headless_write b).drop 8
        = messageMeta 1 (encodeBatchBody b).length b.num_rows ++ encodeBatchBody b := by
      have : headless_write b
          = ([255, 255, 255, 255]
            ++ u32le (messageMeta 1 (encodeBatchBody b).length b.num_rows).length)
            ++ (messageMeta 1 (encodeBatchBody b).length b.num_rows
              ++ encodeBatchBody b) := by
        rw [hassoc]
        simp
      rw [this]
      exact List.drop_left' (by simp [u32le])
    have hdec := decodeU32le_u32le
      (messageMeta 1 (encodeBatchBody b).length b.num_rows).length (by omega)
    simp only [maybeNextAux]
    rw [if_neg (by omega)]
    rw [htake4, hdrop4take]
    simp only [u32le, eq_self_iff_true, if_true, hdec, hdrop8]
    rw [if_neg (by rw [hdrop4len]; omega)]
    rw [if_neg (by omega :
      ¬(messageMeta 1 (encodeBatchBody b).length b.num_rows).length = 0)]
    rw [if_pos (by simp :
      (messageMeta 1 (encodeBatchBody b).length b.num_rows).length
        ≤ (messageMeta 1 (encodeBatchBody b).length b.num_rows
          ++ encodeBatchBody b).length)]
    rw [List.take_left]
    rw [parseMessageMeta_messageMeta 1 (encodeBatchBody b).length b.num_rows hbody]
    rw [List.drop_left]
    simp [read_record_batch_encode b hcols hclen, List.take_length]

/-- C5: for every non-empty well-formed record batch `B` and either
compression flag, `read_one_batch` applied to the bytes produced by
`write_one_batch B` (consuming the 8-byte little-endian length header)
returns a batch equal to `B`; and `write_one_batch` on a zero-row batch
writes no bytes and returns 0. -/
theorem C5_ipc_roundtrip (b : RecordBatch) (compress : Bool)
    (hrows : 0 < b.num_rows)
    (hcols : b.columns.length = b.fields.length)
    (hclen : ∀ col ∈ b.columns, col.length = b.num_rows)
    (hnr : b.num_rows < 18446744073709551616)
    (hbody : (encodeBatchBody b).length < 18446744073709551616)
    (hpay : (headless_write b).length < 18446744073709551616) :
    read_one_batch b.fields compress true (write_one_batch b compress).1 = some b ∧
    ∀ b0 : RecordBatch, b0.num_rows = 0 → write_one_batch b0 compress = ([], 0) := by
  constructor
  · have hz1 : (if compress then zstdCompress (headless_write b) else headless_write b)
        = headless_write b := by
      cases compress <;> rfl
    have hz2 : (if compress then zstdDecompress (headless_write b) else headless_write b)
        = headless_write b := by
      cases compress <;> rfl
    unfold write_one_batch
    rw [if_neg (by omega)]
    simp only [hz1]
    unfold read_one_batch maybe_next
    simp only [if_true, readU64le_u64le _ hpay, le_refl, if_pos, List.take_length, hz2]
    rw [maybeNext_headless_write b _ (by omega) hcols hclen hnr hbody]
  · intro b0 h0
    unfold write_one_batch
    rw [if_pos h0]

/-- Witness for C5: a one-column two-row batch with a null cell, with
compression on. -/
theorem C5_ipc_roundtrip_witness :
    ((0 : Nat) < (2 : Nat)) ∧
    (read_one_batch [⟨"a", ArrowType.other "int", false⟩] true true
        (write_one_batch
          ⟨[⟨"a", ArrowType.other "int", false⟩], 2, [[some [1], none]]⟩ true).1
      = some ⟨[⟨"a", ArrowType.other "int", false⟩], 2, [[some [1], none]]⟩ ∧
     ∀ b0 : RecordBatch, b0.num_rows = 0 → write_one_batch b0 true = ([], 0)) :=
  ⟨by decide,
    C5_ipc_roundtrip ⟨[⟨"a", ArrowType.other "int", false⟩], 2, [[some [1], none]]⟩
      true (by decide) (by decide) (by decide) (by decide) (by decide) (by decide)⟩
